import Mathlib

/-!
A verification development for `DS/Bitset.h`.

`Bitset` is a run-time sized bit vector packed into `unsigned long long` words.
The C++ object has three fields (`N`, `capacity`, `bits`); the embedding keeps
them as a structure of natural numbers and a list of words.

Conventions of the embedding

* a word (`unsigned long long`) is a natural number below `2 ^ 64`; every
  operation that can leave that range in C++ (`item << rem`, `~w`) is followed
  by the reduction the hardware performs;
* `size_t` is 64 bits wide and `int` is 32 bits wide (the LP64 data model); the
  one `size_t` sum that can wrap (`N + BASE - 1` in the constructor) and the one
  `size_t`-to-`int` conversion (the loop counter of `operator>>=`) are reduced
  explicitly;
* `bits[i]` is `List.getD bits i 0` and `bits[i] = x` is `List.set`; reads and
  writes outside the buffer are undefined in C++ and every theorem below keeps
  the indices inside the buffer; that the methods themselves stay inside the
  buffer is proved on checked versions of them (`readAt`, `writeAt`, `shl64`,
  `shr64`, `toIntChecked`), which fail on an access or a shift that C++ leaves
  undefined;
* a `for` loop is a left fold of its body over the list of values taken by the
  loop counter; a loop with an early `return` is a recursive scan over the same
  list.
-/

namespace CPT

/-- The constant `BASE` of the class: the width of a word. -/
def BASE : Nat := 64

/-- The constant `TWO_BASE` of the class: `log2 BASE`. -/
def TWO_BASE : Nat := 6

/-- The constant `ULLONG_MAX`. -/
def ULLONG_MAX : Nat := 2 ^ 64 - 1

/-- Reduction of a value to the range of `unsigned long long` / `size_t`. -/
def wrap64 (x : Nat) : Nat := x % 2 ^ 64

/-- The operator `~` on an `unsigned long long`: each of the 64 bits is inverted. -/
def not64 (w : Nat) : Nat := ULLONG_MAX ^^^ w

/-- The compiler builtin `__builtin_popcountll`: the number of one bits among the
64 bits of the word. -/
def popcountll (w : Nat) : Nat :=
  (List.range 64).countP (fun p => w.testBit p)

/-- Position of the highest one bit of `w` below position `n` (`0` when there is
none): the scan from the top that `__builtin_clzll` performs. -/
def highBit (w : Nat) : Nat → Nat
  | 0 => 0
  | p + 1 => if w.testBit p then p else highBit w p

/-- The library helper `__lg` on a non-zero `unsigned long long`, that is
`63 - __builtin_clzll(w)`: the position of the highest one bit. -/
def lg (w : Nat) : Nat := highBit w 64

/-- Conversion of a `size_t` value to `int` (32 bits, two's complement). -/
def toInt (x : Nat) : Int :=
  if x % 2 ^ 32 < 2 ^ 31 then ((x % 2 ^ 32 : Nat) : Int) else ((x % 2 ^ 32 : Nat) : Int) - 2 ^ 32

/-- The mask `(1ull << (N & (BASE - 1))) - 1ull` of the in-range bits of the last
word, used by `set()`, `count()` and `operator<<=`. -/
def tailMask (N : Nat) : Nat := (1 <<< (N &&& (BASE - 1))) - 1

/-- The three data members of the class `Bitset`. -/
structure Bitset where
  /-- Number of logical bits. -/
  N : Nat
  /-- Number of words of the buffer. -/
  capacity : Nat
  /-- The buffer. -/
  bits : List Nat
deriving DecidableEq

namespace Bitset

/-- Method `Bitset &reset()`: every word of the buffer is zeroed. -/
def reset (b : Bitset) : Bitset :=
  { b with
    bits := (List.range b.capacity).foldl (fun bs i => bs.set i 0) b.bits }

/-- Constructor `Bitset(const size_t N)`: the buffer gets `(N + BASE - 1) >> TWO_BASE` words
(the sum is a `size_t` sum) and is cleared by `reset()`. -/
def ctor (n : Nat) : Bitset :=
  reset
    { N := n
      capacity := wrap64 (n + BASE - 1) >>> TWO_BASE
      bits := List.replicate (wrap64 (n + BASE - 1) >>> TWO_BASE) 0 }

/-- Constructor `Bitset(const Bitset &other)`: the copy constructor, a word by word copy
of `capacity` words. -/
def copy (other : Bitset) : Bitset :=
  { N := other.N
    capacity := other.capacity
    bits := (List.range other.capacity).foldl (fun bs i => bs.set i (other.bits.getD i 0))
      (List.replicate other.capacity 0) }

/-- Method `Bitset &set()`: every word becomes all ones, the last one cut to the
in-range bits when `N` is not a multiple of `BASE`. -/
def set (b : Bitset) : Bitset :=
  { b with
    bits := (List.range b.capacity).foldl
      (fun bs i =>
        if i + 1 = b.capacity ∧ (b.N &&& (BASE - 1)) ≠ 0 then
          bs.set i (ULLONG_MAX &&& tailMask b.N)
        else bs.set i ULLONG_MAX)
      b.bits }

/-- Method `Bitset &set(size_t index)`. -/
def set_at (b : Bitset) (index : Nat) : Bitset :=
  { b with
    bits := b.bits.set (index >>> TWO_BASE)
      (b.bits.getD (index >>> TWO_BASE) 0 ||| (1 <<< (index &&& (BASE - 1)))) }

/-- Method `size_t count()`: the sum of the population counts of the words, the last
word masked when `N` is not a multiple of `BASE`. -/
def count (b : Bitset) : Nat :=
  (List.range b.capacity).foldl
    (fun res i =>
      if i + 1 = b.capacity ∧ (b.N &&& (BASE - 1)) ≠ 0 then
        res + popcountll (b.bits.getD i 0 &&& tailMask b.N)
      else res + popcountll (b.bits.getD i 0))
    0

/-- Method `bool any()`. -/
def any (b : Bitset) : Bool := decide (count b > 0)

/-- Method `bool none()`. -/
def none (b : Bitset) : Bool := decide (count b = 0)

/-- Method `Bitset &reset(size_t index)`. -/
def reset_at (b : Bitset) (index : Nat) : Bitset :=
  { b with
    bits := b.bits.set (index >>> TWO_BASE)
      (b.bits.getD (index >>> TWO_BASE) 0 &&& not64 (1 <<< (index &&& (BASE - 1)))) }

/-- Method `Bitset &flip()`: every word of the buffer is complemented. -/
def flip (b : Bitset) : Bitset :=
  { b with
    bits := (List.range b.capacity).foldl
      (fun bs i => bs.set i (not64 (bs.getD i 0))) b.bits }

/-- Method `Bitset &flip(size_t index)`. -/
def flip_at (b : Bitset) (index : Nat) : Bitset :=
  { b with
    bits := b.bits.set (index >>> TWO_BASE)
      (b.bits.getD (index >>> TWO_BASE) 0 ^^^ (1 <<< (index &&& (BASE - 1)))) }

/-- One iteration of the loop of `operator<<=`: `src` is the buffer of `*this`,
`rb` the buffer of the local `res`, `i` the loop counter. -/
def shlStep (N capacity : Nat) (src : List Nat) (blocks rem : Nat)
    (rb : List Nat) (i : Nat) : List Nat :=
  let item := src.getD (i - blocks) 0
  if i + 1 = capacity then
    let rb1 :=
      if rem = 0 then rb.set i item
      else rb.set i (rb.getD i 0 ||| wrap64 (item <<< rem))
    if (N &&& (BASE - 1)) > 0 then rb1.set i (rb1.getD i 0 &&& tailMask N) else rb1
  else
    if rem = 0 then rb.set i item
    else
      let rb1 := rb.set i (rb.getD i 0 ||| wrap64 (item <<< rem))
      rb1.set (i + 1) (rb1.getD (i + 1) 0 ||| (item >>> (BASE - rem)))

/-- Method `Bitset &operator<<=(const size_t shift)`: the result is assembled in a
fresh `res(N)` and moved into `*this`. -/
def shlAssign (b : Bitset) (shift : Nat) : Bitset :=
  let res := ctor b.N
  if shift ≥ b.N then res
  else
    let blocks := shift >>> TWO_BASE
    let rem := shift &&& (BASE - 1)
    { res with
      bits := (List.range' blocks (b.capacity - blocks)).foldl
        (shlStep b.N b.capacity b.bits blocks rem) res.bits }

/-- Method `Bitset operator<<(const size_t shift) const`. -/
def shl (b : Bitset) (shift : Nat) : Bitset := shlAssign (copy b) shift

/-- One iteration of the loop of `operator>>=`. -/
def shrStep (src : List Nat) (blocks rem : Nat) (rb : List Nat) (i : Nat) : List Nat :=
  let item := src.getD (i + blocks) 0
  if rem = 0 then rb.set i item
  else if i = 0 then rb.set i (rb.getD i 0 ||| (item >>> rem))
  else
    let rb1 := rb.set i (rb.getD i 0 ||| (item >>> rem))
    rb1.set (i - 1) (rb1.getD (i - 1) 0 ||| wrap64 (item <<< (BASE - rem)))

/-- The values taken by the counter of `for (int i = start; i >= 0; --i)`. -/
def downFrom (start : Int) : List Nat :=
  if start < 0 then [] else (List.range (start.toNat + 1)).reverse

/-- Method `Bitset &operator>>=(const size_t shift)`: the loop counter is the `int`
obtained from the `size_t` value `capacity - blocks - 1` (a `size_t`
difference, so it wraps when `capacity <= blocks`). -/
def shrAssign (b : Bitset) (shift : Nat) : Bitset :=
  let res := ctor b.N
  if shift ≥ b.N then res
  else
    let blocks := shift >>> TWO_BASE
    let rem := shift &&& (BASE - 1)
    { res with
      bits := (downFrom (toInt (wrap64 (b.capacity + 2 ^ 64 - blocks - 1)))).foldl
        (shrStep b.bits blocks rem) res.bits }

/-- Method `Bitset operator>>(const size_t shift) const`. -/
def shr (b : Bitset) (shift : Nat) : Bitset := shrAssign (copy b) shift

/-- Method `Bitset operator~() const`. -/
def not (b : Bitset) : Bitset := flip (copy b)

/-- Method `Bitset &operator&=(const Bitset &other)`. -/
def andAssign (b other : Bitset) : Bitset :=
  { b with
    bits := (List.range b.capacity).foldl
      (fun bs i => bs.set i (bs.getD i 0 &&& other.bits.getD i 0)) b.bits }

/-- Method `Bitset operator&(const Bitset &other) const`. -/
def and (b other : Bitset) : Bitset := andAssign (copy b) other

/-- Method `Bitset &operator|=(const Bitset &other)`. -/
def orAssign (b other : Bitset) : Bitset :=
  { b with
    bits := (List.range b.capacity).foldl
      (fun bs i => bs.set i (bs.getD i 0 ||| other.bits.getD i 0)) b.bits }

/-- Method `Bitset operator|(const Bitset &other) const`. -/
def or (b other : Bitset) : Bitset := orAssign (copy b) other

/-- Method `Bitset &operator^=(const Bitset &other)`. -/
def xorAssign (b other : Bitset) : Bitset :=
  { b with
    bits := (List.range b.capacity).foldl
      (fun bs i => bs.set i (bs.getD i 0 ^^^ other.bits.getD i 0)) b.bits }

/-- Method `Bitset operator^(const Bitset &other) const`. -/
def xor (b other : Bitset) : Bitset := xorAssign (copy b) other

/-- The scanning loop shared by `_Find_first` and `_Find_next`: the first
non-zero word among the listed indices decides, `N` is returned when every
listed word is zero. -/
def scan (b : Bitset) : List Nat → Nat
  | [] => b.N
  | i :: rest =>
    if b.bits.getD i 0 = 0 then scan b rest
    else lg (b.bits.getD i 0 ^^^ (b.bits.getD i 0 - 1)) + i * 64

/-- Method `size_t _Find_first()`. -/
def Find_first (b : Bitset) : Nat := scan b (List.range b.capacity)

/-- Method `size_t _Find_next(size_t index)`. -/
def Find_next (b : Bitset) (index : Nat) : Nat :=
  let rest := scan b (List.range' ((index >>> 6) + 1) (b.capacity - ((index >>> 6) + 1)))
  if (index &&& 63) ≠ 63 then
    let bit := b.bits.getD (index >>> 6) 0 &&& not64 ((1 <<< ((index &&& 63) + 1)) - 1)
    if bit ≠ 0 then (index >>> 6) * 64 + lg (bit ^^^ (bit - 1)) else rest
  else rest

/-- Method `bool operator[](size_t index) const`. -/
def get (b : Bitset) (index : Nat) : Bool :=
  decide ((b.bits.getD (index >>> 6) 0 &&& (1 <<< (index &&& 63))) ≠ 0)

/-- Closed form of word `j` of the result of `operator<<=` (a proof device: the
loop of `shlAssign` is shown to compute it): the low part comes from source word
`j - blocks`, the carry from source word `j - blocks - 1`, and the last word is
cut by the tail mask. -/
def shlWord (N capacity : Nat) (src : List Nat) (blocks rem j : Nat) : Nat :=
  if j < blocks then 0
  else if j + 1 = capacity ∧ N % 64 > 0 then
    ((if rem = 0 ∨ j ≤ blocks then 0 else src.getD (j - 1 - blocks) 0 >>> (BASE - rem)) |||
      (if rem = 0 then src.getD (j - blocks) 0 else wrap64 (src.getD (j - blocks) 0 <<< rem))) &&&
      tailMask N
  else
    (if rem = 0 ∨ j ≤ blocks then 0 else src.getD (j - 1 - blocks) 0 >>> (BASE - rem)) |||
      (if rem = 0 then src.getD (j - blocks) 0 else wrap64 (src.getD (j - blocks) 0 <<< rem))

/-- Closed form of word `j` of the result of `operator>>=` when the loop runs
over the counters `n - 1, ..., 0` (a proof device): the low part comes from
source word `j + blocks`, the carry from source word `j + blocks + 1`. -/
def shrWord (src : List Nat) (blocks rem n j : Nat) : Nat :=
  if n ≤ j then 0
  else
    (if rem = 0 ∨ n ≤ j + 1 then 0 else wrap64 (src.getD (j + 1 + blocks) 0 <<< (BASE - rem))) |||
      (if rem = 0 then src.getD (j + blocks) 0 else src.getD (j + blocks) 0 >>> rem)

/-- What a live object holding `N` logical bits looks like: the `size_t` sum of
the constructor did not wrap, the buffer has `ceil(N / 64)` words, and every
word is a 64-bit value. Nothing is said about the bits of the last word beyond
`N`. -/
def Valid (b : Bitset) : Prop :=
  b.N + 63 < 2 ^ 64 ∧ b.capacity = (b.N + 63) / 64 ∧ b.bits.length = b.capacity ∧
    ∀ w ∈ b.bits, w < 2 ^ 64

instance (b : Bitset) : Decidable (Valid b) := by
  unfold Valid; infer_instance

/-- The tail of the buffer is clean: when `N` is not a multiple of 64, no bit of
the last word is set at a position `>= N % 64`. -/
def TailClean (b : Bitset) : Prop :=
  b.N % 64 ≠ 0 → ∀ p, b.N % 64 ≤ p → (b.bits.getD (b.capacity - 1) 0).testBit p = false

/-- The sequence `i0 = _Find_first()`, `i(k+1) = _Find_next(ik)` from a given
element on, stopped at the first value that is not below `N` (the caller's loop
`for (i = _Find_first(); i < N; i = _Find_next(i))`), run for at most `fuel`
evaluations of the loop condition; `none` when the fuel runs out before the
sequence stops. -/
def enumFrom (b : Bitset) : Nat → Nat → Option (List Nat)
  | 0, _ => Option.none
  | fuel + 1, i =>
    if i < b.N then (enumFrom b fuel (Find_next b i)).map (fun l => i :: l) else some []

/-- The enumeration started at `_Find_first()`. -/
def enumerate (b : Bitset) (fuel : Nat) : Option (List Nat) :=
  enumFrom b fuel (Find_first b)

/-- The vector of the spec's scenario: `N = 10` with bits 2, 5 and 9 set. -/
def scenario10 : Bitset := set_at (set_at (set_at (ctor 10) 2) 5) 9

/-- The state of a fresh `Bitset(10)` after `flip()`. -/
def flipped10 : Bitset := flip (ctor 10)

/-- The state reached by `Bitset b(10); b.flip(); b >>= 1; b.flip();`. -/
def tail63 : Bitset := flip (shrAssign (flip (ctor 10)) 1)

/-- A vector of `2 ^ 37 + 64` bits (`2 ^ 31 + 1` words) with only bit 0 set:
the state of `Bitset b(137438953536); b.set(0);`. -/
def wide : Bitset :=
  { N := 2 ^ 37 + 64
    capacity := 2 ^ 31 + 1
    bits := 1 :: List.replicate (2 ^ 31) 0 }

/-- A read `a[i]` of a buffer, with the bound made explicit: it is defined only
for an index inside the buffer. -/
def readAt (a : List Nat) (i : Nat) : Option Nat :=
  if i < a.length then some (a.getD i 0) else Option.none

/-- A write `a[i] = x` to a buffer, defined only for an index inside the
buffer. -/
def writeAt (a : List Nat) (i x : Nat) : Option (List Nat) :=
  if i < a.length then some (a.set i x) else Option.none

/-- The shift `x << s` of an `unsigned long long`, defined only for an amount
in `[0, 63]`. -/
def shl64 (x s : Nat) : Option Nat :=
  if s < 64 then some (wrap64 (x <<< s)) else Option.none

/-- The shift `x >> s` of an `unsigned long long`, defined only for an amount
in `[0, 63]`. -/
def shr64 (x s : Nat) : Option Nat :=
  if s < 64 then some (x >>> s) else Option.none

/-- Conversion of a `size_t` value to `int`, defined only when the value is
representable. -/
def toIntChecked (x : Nat) : Option Int :=
  if x < 2 ^ 31 then some (x : Int) else Option.none

/-- One iteration of the loop of `operator<<=` with every buffer access and
every shift checked. -/
def shlStepChecked (N capacity : Nat) (src : List Nat) (blocks rem : Nat)
    (rb : List Nat) (i : Nat) : Option (List Nat) := do
  let item ← readAt src (i - blocks)
  if i + 1 = capacity then
    let rb1 ←
      if rem = 0 then writeAt rb i item
      else do
        let old ← readAt rb i
        let x ← shl64 item rem
        writeAt rb i (old ||| x)
    if (N &&& (BASE - 1)) > 0 then do
      let old ← readAt rb1 i
      let m ← shl64 1 (N &&& (BASE - 1))
      writeAt rb1 i (old &&& (m - 1))
    else pure rb1
  else
    if rem = 0 then writeAt rb i item
    else do
      let old ← readAt rb i
      let x ← shl64 item rem
      let rb1 ← writeAt rb i (old ||| x)
      let old1 ← readAt rb1 (i + 1)
      let y ← shr64 item (BASE - rem)
      writeAt rb1 (i + 1) (old1 ||| y)

/-- The method `operator<<=` with every buffer access and every shift of its
loop checked. -/
def shlAssignChecked (b : Bitset) (shift : Nat) : Option Bitset :=
  let res := ctor b.N
  if shift ≥ b.N then some res
  else
    let blocks := shift >>> TWO_BASE
    let rem := shift &&& (BASE - 1)
    ((List.range' blocks (b.capacity - blocks)).foldlM
      (shlStepChecked b.N b.capacity b.bits blocks rem) res.bits).map
      (fun bits => { res with bits := bits })

/-- One iteration of the loop of `operator>>=` with every buffer access and
every shift checked. -/
def shrStepChecked (src : List Nat) (blocks rem : Nat) (rb : List Nat) (i : Nat) :
    Option (List Nat) := do
  let item ← readAt src (i + blocks)
  if rem = 0 then writeAt rb i item
  else if i = 0 then do
    let old ← readAt rb i
    let x ← shr64 item rem
    writeAt rb i (old ||| x)
  else do
    let old ← readAt rb i
    let x ← shr64 item rem
    let rb1 ← writeAt rb i (old ||| x)
    let old1 ← readAt rb1 (i - 1)
    let y ← shl64 item (BASE - rem)
    writeAt rb1 (i - 1) (old1 ||| y)

/-- The method `operator>>=` with the conversion of its loop counter, every
buffer access and every shift of its loop checked. -/
def shrAssignChecked (b : Bitset) (shift : Nat) : Option Bitset :=
  let res := ctor b.N
  if shift ≥ b.N then some res
  else
    let blocks := shift >>> TWO_BASE
    let rem := shift &&& (BASE - 1)
    (toIntChecked (wrap64 (b.capacity + 2 ^ 64 - blocks - 1))).bind (fun start =>
      ((downFrom start).foldlM (shrStepChecked b.bits blocks rem) res.bits).map
        (fun bits => { res with bits := bits }))

/-- The scanning loop of `_Find_first` and `_Find_next` with every buffer
access checked. -/
def scanChecked (b : Bitset) : List Nat → Option Nat
  | [] => some b.N
  | i :: rest =>
    (readAt b.bits i).bind (fun w =>
      if w = 0 then scanChecked b rest else some (lg (w ^^^ (w - 1)) + i * 64))

/-- The method `_Find_next` with every buffer access and its shift checked. -/
def Find_nextChecked (b : Bitset) (index : Nat) : Option Nat :=
  if (index &&& 63) ≠ 63 then
    (readAt b.bits (index >>> 6)).bind (fun w =>
      (shl64 1 ((index &&& 63) + 1)).bind (fun m =>
        if w &&& not64 (m - 1) ≠ 0 then
          some ((index >>> 6) * 64 + lg ((w &&& not64 (m - 1)) ^^^ ((w &&& not64 (m - 1)) - 1)))
        else scanChecked b (List.range' ((index >>> 6) + 1) (b.capacity - ((index >>> 6) + 1)))))
  else scanChecked b (List.range' ((index >>> 6) + 1) (b.capacity - ((index >>> 6) + 1)))

end Bitset

/-! ## Buffers: reads, writes and word-by-word loops -/

theorem getD_set (l : List Nat) (i j x : Nat) :
    (l.set i x).getD j 0 = if i = j ∧ i < l.length then x else l.getD j 0 := by
  simp only [List.getD_eq_getElem?_getD, List.getElem?_set]
  by_cases h : i = j
  · subst h
    by_cases h2 : i < l.length
    · simp [h2]
    · have h3 : l[i]? = Option.none := List.getElem?_eq_none (by omega)
      simp [h2, h3]
  · simp [h]

theorem getD_replicate_zero (n j : Nat) : (List.replicate n 0).getD j 0 = 0 := by
  simp only [List.getD_eq_getElem?_getD, List.getElem?_replicate]
  split <;> rfl

theorem getD_lt_of_forall (l : List Nat) (B : Nat) (hB : 0 < B) (h : ∀ w ∈ l, w < B) (j : Nat) :
    l.getD j 0 < B := by
  by_cases hj : j < l.length
  · rw [List.getD_eq_getElem l 0 hj]
    exact h _ (List.getElem_mem hj)
  · rw [List.getD_eq_default l 0 (by omega)]
    exact hB

theorem forall_lt_of_getD (l : List Nat) (B : Nat) (h : ∀ j, j < l.length → l.getD j 0 < B) :
    ∀ w ∈ l, w < B := by
  intro w hw
  obtain ⟨j, hj, rfl⟩ := List.getElem_of_mem hw
  have := h j hj
  rwa [List.getD_eq_getElem l 0 hj] at this

/-- A loop `for (i = 0; i < n; ++i) bits[i] = f(i, bits[i])` keeps the length of
the buffer. -/
theorem loop_length (f : Nat → Nat → Nat) (n : Nat) (bs : List Nat) :
    ((List.range n).foldl (fun l i => l.set i (f i (l.getD i 0))) bs).length = bs.length := by
  induction n with
  | zero => simp
  | succ n ih =>
    simp only [List.range_succ, List.foldl_append, List.foldl_cons, List.foldl_nil,
      List.length_set, ih]

/-- A loop `for (i = 0; i < n; ++i) bits[i] = f(i, bits[i])` over the first `n`
words of the buffer: word `j` becomes `f j` of its old value when `j < n`, and
is untouched otherwise. -/
theorem loop_getD (f : Nat → Nat → Nat) (n : Nat) (bs : List Nat) (hn : n ≤ bs.length)
    (j : Nat) :
    ((List.range n).foldl (fun l i => l.set i (f i (l.getD i 0))) bs).getD j 0 =
      if j < n then f j (bs.getD j 0) else bs.getD j 0 := by
  induction n with
  | zero => simp
  | succ n ih =>
    have ih2 := ih (by omega)
    have hl := loop_length f n bs
    rw [List.range_succ, List.foldl_append]
    simp only [List.foldl_cons, List.foldl_nil]
    rw [getD_set, hl]
    by_cases hj : n = j
    · subst hj
      have : n < bs.length := by omega
      simp only [true_and, this, if_true]
      rw [ih (by omega)]
      simp
    · rw [ih2]
      have : ¬ (n = j ∧ n < bs.length) := fun h => hj h.1
      simp only [this, if_false]
      by_cases h1 : j < n
      · have : j < n + 1 := by omega
        simp [h1, this]
      · have : ¬ j < n + 1 := by omega
        simp [h1, this]

/-! ## Words and single bits -/

theorem and_one_shiftLeft_ne_zero (w r : Nat) :
    decide ((w &&& (1 <<< r)) ≠ 0) = w.testBit r := by
  rw [Nat.one_shiftLeft, Nat.and_two_pow]
  cases h : w.testBit r <;> simp [h]

theorem shiftRight_six (i : Nat) : i >>> 6 = i / 64 := by
  rw [Nat.shiftRight_eq_div_pow]

theorem and_63 (i : Nat) : i &&& 63 = i % 64 := by
  have := Nat.and_pow_two_sub_one_eq_mod i 6
  simpa using this

namespace Bitset
theorem get_eq_testBit (b : Bitset) (i : Nat) :
    get b i = (b.bits.getD (i / 64) 0).testBit (i % 64) := by
  unfold get
  rw [and_one_shiftLeft_ne_zero, shiftRight_six, and_63]
end Bitset
/-! ## Construction and copy -/

theorem list_ext_getD (l₁ l₂ : List Nat) (hlen : l₁.length = l₂.length)
    (h : ∀ j, j < l₁.length → l₁.getD j 0 = l₂.getD j 0) : l₁ = l₂ := by
  apply List.ext_getElem hlen
  intro j h1 h2
  have := h j h1
  rwa [List.getD_eq_getElem l₁ 0 h1, List.getD_eq_getElem l₂ 0 h2] at this

theorem base_sub_one : BASE - 1 = 63 := rfl

theorem tailMask_eq (N : Nat) : tailMask N = 2 ^ (N % 64) - 1 := by
  unfold tailMask
  rw [base_sub_one, and_63, Nat.one_shiftLeft]

theorem testBit_tailMask (N p : Nat) : (tailMask N).testBit p = decide (p < N % 64) := by
  rw [tailMask_eq, Nat.testBit_two_pow_sub_one]

theorem testBit_ULLONG_MAX (p : Nat) : ULLONG_MAX.testBit p = decide (p < 64) := by
  unfold ULLONG_MAX
  rw [Nat.testBit_two_pow_sub_one]

theorem testBit_not64 (w p : Nat) : (not64 w).testBit p = (decide (p < 64) ^^ w.testBit p) := by
  unfold not64
  rw [Nat.testBit_xor, testBit_ULLONG_MAX]

theorem not64_lt (w : Nat) (h : w < 2 ^ 64) : not64 w < 2 ^ 64 := by
  unfold not64 ULLONG_MAX
  exact Nat.xor_lt_two_pow (by omega) h

theorem testBit_eq_false_of_lt (w p : Nat) (h : w < 2 ^ 64) (hp : 64 ≤ p) : w.testBit p = false := by
  apply Nat.testBit_lt_two_pow
  exact lt_of_lt_of_le h (Nat.pow_le_pow_right (by omega) hp)

namespace Bitset

theorem Valid.word_lt {b : Bitset} (h : Valid b) (j : Nat) : b.bits.getD j 0 < 2 ^ 64 :=
  getD_lt_of_forall b.bits (2 ^ 64) (by omega) h.2.2.2 j

theorem Valid.index_lt {b : Bitset} (h : Valid b) {i : Nat} (hi : i < b.N) : i / 64 < b.capacity := by
  rw [h.2.1]; omega

theorem copy_eq (b : Bitset) (h : b.bits.length = b.capacity) : copy b = b := by
  have hl : (copy b).bits.length = b.bits.length := by
    unfold copy
    simp only
    rw [loop_length (fun i _ => b.bits.getD i 0), List.length_replicate, h]
  have hb : (copy b).bits = b.bits := by
    apply list_ext_getD _ _ hl
    intro j hj
    unfold copy
    simp only
    rw [loop_getD (fun i _ => b.bits.getD i 0) b.capacity _ (by simp) j]
    have : j < b.capacity := by rw [← h, ← hl]; exact hj
    simp [this]
  cases b
  simp only [copy] at hb ⊢
  simp only [hb]

theorem reset_bits_getD (b : Bitset) (h : b.capacity ≤ b.bits.length) (j : Nat) :
    (reset b).bits.getD j 0 = if j < b.capacity then 0 else b.bits.getD j 0 := by
  unfold reset
  exact loop_getD (fun _ _ => 0) b.capacity b.bits h j

theorem ctor_N (n : Nat) : (ctor n).N = n := rfl

theorem ctor_capacity (n : Nat) (h : n + 63 < 2 ^ 64) : (ctor n).capacity = (n + 63) / 64 := by
  show wrap64 (n + BASE - 1) >>> TWO_BASE = _
  unfold wrap64 BASE TWO_BASE
  rw [Nat.shiftRight_eq_div_pow, Nat.mod_eq_of_lt (by omega)]
  rfl

theorem ctor_length (n : Nat) : (ctor n).bits.length = (ctor n).capacity := by
  unfold ctor reset
  simp only
  rw [loop_length (fun _ _ => 0), List.length_replicate]

theorem ctor_bits_getD (n j : Nat) : (ctor n).bits.getD j 0 = 0 := by
  unfold ctor
  rw [reset_bits_getD _ (by simp)]
  simp only [getD_replicate_zero, ite_self]

theorem ctor_valid (n : Nat) (h : n + 63 < 2 ^ 64) : Valid (ctor n) := by
  refine ⟨h, ctor_capacity n h, ctor_length n, ?_⟩
  apply forall_lt_of_getD
  intro j _
  rw [ctor_bits_getD]
  omega

theorem get_ctor (n i : Nat) : get (ctor n) i = false := by
  rw [get_eq_testBit, ctor_bits_getD, Nat.zero_testBit]

end Bitset
/-! ## Whole-vector flip and set -/
namespace Bitset

theorem flip_N (b : Bitset) : (flip b).N = b.N := rfl
theorem flip_capacity (b : Bitset) : (flip b).capacity = b.capacity := rfl

theorem flip_length (b : Bitset) : (flip b).bits.length = b.bits.length := by
  unfold flip
  exact loop_length (fun _ w => not64 w) b.capacity b.bits

theorem flip_bits_getD (b : Bitset) (h : b.capacity ≤ b.bits.length) (j : Nat) :
    (flip b).bits.getD j 0 = if j < b.capacity then not64 (b.bits.getD j 0) else b.bits.getD j 0 := by
  unfold flip
  exact loop_getD (fun _ w => not64 w) b.capacity b.bits h j

theorem flip_valid (b : Bitset) (h : Valid b) : Valid (flip b) := by
  refine ⟨h.1, h.2.1, by rw [flip_length]; exact h.2.2.1, ?_⟩
  apply forall_lt_of_getD
  intro j hj
  rw [flip_length, h.2.2.1] at hj
  rw [flip_bits_getD b (by rw [h.2.2.1]), if_pos hj]
  exact not64_lt _ (h.word_lt j)

theorem get_flip (b : Bitset) (h : Valid b) (i : Nat) (hi : i < b.N) :
    get (flip b) i = !get b i := by
  rw [get_eq_testBit, get_eq_testBit, flip_bits_getD b (by rw [h.2.2.1]), if_pos (h.index_lt hi),
    testBit_not64]
  have : i % 64 < 64 := Nat.mod_lt _ (by omega)
  simp [this]

theorem set_loop_eq (b : Bitset) :
    (fun (bs : List Nat) i =>
        if i + 1 = b.capacity ∧ (b.N &&& (BASE - 1)) ≠ 0 then
          bs.set i (ULLONG_MAX &&& tailMask b.N)
        else bs.set i ULLONG_MAX) =
      fun bs i => bs.set i ((fun i (_ : Nat) =>
        if i + 1 = b.capacity ∧ b.N % 64 ≠ 0 then ULLONG_MAX &&& tailMask b.N
        else ULLONG_MAX) i (bs.getD i 0)) := by
  funext bs i
  rw [base_sub_one, and_63]
  by_cases hc : i + 1 = b.capacity ∧ b.N % 64 ≠ 0
  · simp only [hc, and_self, if_true, ne_eq, not_false_eq_true]
  · simp only [hc, if_false]

theorem set_length (b : Bitset) : (set b).bits.length = b.bits.length := by
  unfold set
  simp only
  rw [set_loop_eq]
  exact loop_length (fun i _ =>
    if i + 1 = b.capacity ∧ b.N % 64 ≠ 0 then ULLONG_MAX &&& tailMask b.N else ULLONG_MAX)
    b.capacity b.bits

theorem set_bits_getD (b : Bitset) (h : b.capacity ≤ b.bits.length) (j : Nat) :
    (set b).bits.getD j 0 =
      if j < b.capacity then
        (if j + 1 = b.capacity ∧ b.N % 64 ≠ 0 then ULLONG_MAX &&& tailMask b.N else ULLONG_MAX)
      else b.bits.getD j 0 := by
  unfold set
  simp only
  rw [set_loop_eq]
  exact loop_getD (fun i _ =>
    if i + 1 = b.capacity ∧ b.N % 64 ≠ 0 then ULLONG_MAX &&& tailMask b.N else ULLONG_MAX)
    b.capacity b.bits h j

theorem set_valid (b : Bitset) (h : Valid b) : Valid (set b) := by
  refine ⟨h.1, h.2.1, by rw [set_length]; exact h.2.2.1, ?_⟩
  apply forall_lt_of_getD
  intro j hj
  rw [set_length, h.2.2.1] at hj
  rw [set_bits_getD b (by rw [h.2.2.1]), if_pos hj]
  have hU : ULLONG_MAX < 2 ^ 64 := by unfold ULLONG_MAX; omega
  split
  · exact lt_of_le_of_lt Nat.and_le_left hU
  · exact hU

theorem get_set (b : Bitset) (h : Valid b) (i : Nat) (hi : i < b.N) : get (set b) i = true := by
  have hc := h.index_lt hi
  rw [get_eq_testBit, set_bits_getD b (by rw [h.2.2.1]), if_pos hc]
  have h64 : i % 64 < 64 := Nat.mod_lt _ (by omega)
  split
  · rename_i hlast
    rw [Nat.testBit_and, testBit_ULLONG_MAX, testBit_tailMask]
    have hcap := h.2.1
    have : i % 64 < b.N % 64 := by omega
    simp [h64, this]
  · rw [testBit_ULLONG_MAX]
    simp [h64]

theorem set_tailClean (b : Bitset) (h : Valid b) : TailClean (set b) := by
  intro hN p hp
  have hcap := h.2.1
  have hN2 : b.N % 64 ≠ 0 := hN
  have hc : b.capacity - 1 < b.capacity := by omega
  show ((set b).bits.getD (b.capacity - 1) 0).testBit p = false
  rw [set_bits_getD b (by rw [h.2.2.1]), if_pos hc]
  have h1 : b.capacity - 1 + 1 = b.capacity ∧ b.N % 64 ≠ 0 := ⟨by omega, hN2⟩
  rw [if_pos h1, Nat.testBit_and, testBit_tailMask]
  have : ¬ p < b.N % 64 := by
    have : (set b).N = b.N := rfl
    rw [this] at hp
    omega
  simp [this]

end Bitset
/-! ## Counting -/

/-- Counting the one bits of a word cut by the tail mask counts the one bits
below the cut. -/
theorem popcountll_mask (w N : Nat) :
    popcountll (w &&& tailMask N) = (List.range (N % 64)).countP (fun p => w.testBit p) := by
  unfold popcountll
  have hr : N % 64 < 64 := Nat.mod_lt _ (by omega)
  have h64 : List.range 64 = List.range (N % 64) ++
      List.map (fun x => N % 64 + x) (List.range (64 - N % 64)) := by
    rw [← List.range_add]
    congr 1
    omega
  rw [h64, List.countP_append, List.countP_map]
  have h2 : List.countP ((fun p => (w &&& tailMask N).testBit p) ∘ fun x => N % 64 + x)
      (List.range (64 - N % 64)) = 0 := by
    rw [List.countP_eq_zero]
    intro a _
    simp only [Function.comp, Nat.testBit_and, testBit_tailMask]
    have : ¬ (N % 64 + a < N % 64) := by omega
    simp [this]
  rw [h2, Nat.add_zero]
  apply List.countP_congr
  intro x hx
  rw [List.mem_range] at hx
  simp only [Nat.testBit_and, testBit_tailMask]
  simp [hx]

namespace Bitset

/-- The contribution of word `i` to `count()`. -/
theorem count_loop_eq (b : Bitset) :
    (fun res i =>
      if i + 1 = b.capacity ∧ (b.N &&& (BASE - 1)) ≠ 0 then
        res + popcountll (b.bits.getD i 0 &&& tailMask b.N)
      else res + popcountll (b.bits.getD i 0)) =
    fun res i => res +
      (if i + 1 = b.capacity ∧ b.N % 64 ≠ 0 then popcountll (b.bits.getD i 0 &&& tailMask b.N)
       else popcountll (b.bits.getD i 0)) := by
  funext res i
  rw [base_sub_one, and_63]
  by_cases hc : i + 1 = b.capacity ∧ b.N % 64 ≠ 0
  · simp only [hc, and_self, if_true, ne_eq, not_false_eq_true]
  · simp only [hc, if_false]

theorem get_add (b : Bitset) (m p : Nat) (hp : p < 64) :
    get b (64 * m + p) = (b.bits.getD m 0).testBit p := by
  rw [get_eq_testBit]
  have h1 : (64 * m + p) / 64 = m := by omega
  have h2 : (64 * m + p) % 64 = p := by omega
  rw [h1, h2]

theorem count_word (b : Bitset) (h : Valid b) (m : Nat) (hm : m < b.capacity) :
    (if m + 1 = b.capacity ∧ b.N % 64 ≠ 0 then popcountll (b.bits.getD m 0 &&& tailMask b.N)
       else popcountll (b.bits.getD m 0)) =
    ((List.range (min 64 (b.N - 64 * m))).map (fun x => 64 * m + x)).countP (fun i => get b i) := by
  have hcap := h.2.1
  rw [List.countP_map]
  by_cases hc : m + 1 = b.capacity ∧ b.N % 64 ≠ 0
  · rw [if_pos hc, popcountll_mask]
    have : min 64 (b.N - 64 * m) = b.N % 64 := by omega
    rw [this]
    apply List.countP_congr
    intro x hx
    rw [List.mem_range] at hx
    simp only [Function.comp]
    rw [get_add b m x (by omega)]
  · rw [if_neg hc]
    have : min 64 (b.N - 64 * m) = 64 := by omega
    rw [this]
    unfold popcountll
    apply List.countP_congr
    intro x hx
    rw [List.mem_range] at hx
    simp only [Function.comp]
    rw [get_add b m x hx]

theorem count_prefix (b : Bitset) (h : Valid b) (m : Nat) (hm : m ≤ b.capacity) :
    (List.range m).foldl (fun res i => res +
      (if i + 1 = b.capacity ∧ b.N % 64 ≠ 0 then popcountll (b.bits.getD i 0 &&& tailMask b.N)
       else popcountll (b.bits.getD i 0))) 0 =
    (List.range (min (64 * m) b.N)).countP (fun i => get b i) := by
  induction m with
  | zero => simp
  | succ m ih =>
    have hcap := h.2.1
    rw [List.range_succ, List.foldl_append, ih (by omega)]
    simp only [List.foldl_cons, List.foldl_nil]
    rw [count_word b h m (by omega)]
    have h1 : min (64 * (m + 1)) b.N = 64 * m + min 64 (b.N - 64 * m) := by omega
    have h2 : min (64 * m) b.N = 64 * m := by omega
    rw [h1, h2, List.range_add, List.countP_append]

/-- The value of `count()` is the number of set logical bits. -/
theorem count_eq_countP (b : Bitset) (h : Valid b) :
    count b = (List.range b.N).countP (fun i => get b i) := by
  unfold count
  rw [count_loop_eq, count_prefix b h b.capacity (le_refl _)]
  have hcap := h.2.1
  have : min (64 * b.capacity) b.N = b.N := by omega
  rw [this]

end Bitset
/-! ## The lowest one bit of a word -/

theorem highBit_eq (w p : Nat) (h1 : w.testBit p = true) (n : Nat) (hp : p < n)
    (h2 : ∀ q, p < q → q < n → w.testBit q = false) : highBit w n = p := by
  induction n with
  | zero => omega
  | succ n ih =>
    unfold highBit
    by_cases hpn : p = n
    · subst hpn
      rw [if_pos h1]
    · have hq : w.testBit n = false := h2 n (by omega) (by omega)
      rw [hq]
      simp only [Bool.false_eq_true, if_false]
      exact ih (by omega) (fun q hq1 hq2 => h2 q hq1 (by omega))

theorem lg_two_pow_sub_one (p : Nat) (hp : p < 64) : lg (2 ^ (p + 1) - 1) = p := by
  unfold lg
  apply highBit_eq
  · rw [Nat.testBit_two_pow_sub_one]; simp
  · exact hp
  · intro q hq _
    rw [Nat.testBit_two_pow_sub_one]
    simp; omega

/-- A word whose lowest one bit is at position `p` splits as
`2 ^ (p + 1) * a + 2 ^ p`. -/
theorem eq_of_lowest (w p : Nat) (h1 : w.testBit p = true)
    (h2 : ∀ q, q < p → w.testBit q = false) : w = 2 ^ (p + 1) * (w / 2 ^ (p + 1)) + 2 ^ p := by
  apply Nat.eq_of_testBit_eq
  intro j
  have hlt : 2 ^ p < 2 ^ (p + 1) := Nat.pow_lt_pow_right (by omega) (by omega)
  rw [Nat.testBit_mul_pow_two_add _ hlt]
  by_cases hj : j < p + 1
  · rw [if_pos hj, Nat.testBit_two_pow]
    by_cases hjp : p = j
    · subst hjp; simp [h1]
    · rw [h2 j (by omega)]; simp [hjp]
  · rw [if_neg hj, ← Nat.shiftRight_eq_div_pow, Nat.testBit_shiftRight]
    congr 1
    omega

/-- The identity behind the scan: for a word with lowest one bit at position
`p`, `w ^ (w - 1)` is the block of ones at positions `0 .. p`. -/
theorem xor_pred_eq (w p : Nat) (h1 : w.testBit p = true)
    (h2 : ∀ q, q < p → w.testBit q = false) : w ^^^ (w - 1) = 2 ^ (p + 1) - 1 := by
  have hw := eq_of_lowest w p h1 h2
  have hpos : 0 < 2 ^ p := Nat.pos_pow_of_pos p (by omega)
  have hlt : 2 ^ p < 2 ^ (p + 1) := Nat.pow_lt_pow_right (by omega) (by omega)
  have hw1 : w - 1 = 2 ^ (p + 1) * (w / 2 ^ (p + 1)) + (2 ^ p - 1) := by
    generalize 2 ^ (p + 1) * (w / 2 ^ (p + 1)) = X at hw
    omega
  apply Nat.eq_of_testBit_eq
  intro j
  rw [Nat.testBit_xor, hw1]
  conv => lhs; lhs; rw [hw]
  rw [Nat.testBit_mul_pow_two_add _ hlt, Nat.testBit_mul_pow_two_add _ (by omega),
    Nat.testBit_two_pow_sub_one]
  by_cases hj : j < p + 1
  · rw [if_pos hj, if_pos hj, Nat.testBit_two_pow, Nat.testBit_two_pow_sub_one]
    by_cases hjp : p = j
    · subst hjp; simp
    · have : j < p := by omega
      simp [hjp, this, hj]
  · rw [if_neg hj, if_neg hj]
    simp [hj]

/-- The lowest one bit of a non-zero 64-bit word, as `_Find_first` and
`_Find_next` compute it. -/
theorem lowbit_spec (w : Nat) (hw : w ≠ 0) (hlt : w < 2 ^ 64) :
    lg (w ^^^ (w - 1)) < 64 ∧ w.testBit (lg (w ^^^ (w - 1))) = true ∧
      ∀ q, q < lg (w ^^^ (w - 1)) → w.testBit q = false := by
  have hex : ∃ i, w.testBit i = true := Nat.ne_zero_implies_bit_true hw
  have h1 := Nat.find_spec hex
  have h2 : ∀ q, q < Nat.find hex → w.testBit q = false := by
    intro q hq
    have := Nat.find_min hex hq
    simpa using this
  have hp : Nat.find hex < 64 := by
    by_contra hge
    have := testBit_eq_false_of_lt w (Nat.find hex) hlt (by omega)
    rw [this] at h1
    exact Bool.false_ne_true h1
  rw [xor_pred_eq w (Nat.find hex) h1 h2, lg_two_pow_sub_one _ hp]
  exact ⟨hp, h1, h2⟩

/-! ## Scanning -/
namespace Bitset

theorem scan_all_zero (b : Bitset) (n s : Nat)
    (h : ∀ i, s ≤ i → i < s + n → b.bits.getD i 0 = 0) : scan b (List.range' s n) = b.N := by
  induction n generalizing s with
  | zero => rfl
  | succ n ih =>
    rw [List.range'_succ]
    unfold scan
    rw [if_pos (h s (le_refl _) (by omega))]
    exact ih (s + 1) (fun i h1 h2 => h i (by omega) (by omega))

theorem scan_first (b : Bitset) (n s i : Nat) (hs : s ≤ i) (hi : i < s + n)
    (hne : b.bits.getD i 0 ≠ 0) (hz : ∀ j, s ≤ j → j < i → b.bits.getD j 0 = 0) :
    scan b (List.range' s n) = lg (b.bits.getD i 0 ^^^ (b.bits.getD i 0 - 1)) + i * 64 := by
  induction n generalizing s with
  | zero => omega
  | succ n ih =>
    rw [List.range'_succ]
    unfold scan
    by_cases hsi : s = i
    · subst hsi
      rw [if_neg hne]
    · rw [if_pos (hz s (le_refl _) (by omega))]
      exact ih (s + 1) (by omega) (by omega) (fun j h1 h2 => hz j (by omega) h2)

/-- What the scanning loop over the words `s, s + 1, ..., capacity - 1` returns:
the position of the first one bit stored in these words, or `N` when all of
them are zero. -/
theorem scan_spec (b : Bitset) (h : Valid b) (s : Nat) :
    (∃ d, 64 * s ≤ d ∧ d < 64 * b.capacity ∧ get b d = true ∧
        (∀ e, 64 * s ≤ e → e < d → get b e = false) ∧
        scan b (List.range' s (b.capacity - s)) = d) ∨
    ((∀ e, 64 * s ≤ e → e < 64 * b.capacity → get b e = false) ∧
        scan b (List.range' s (b.capacity - s)) = b.N) := by
  by_cases hex : ∃ i, s ≤ i ∧ i < b.capacity ∧ b.bits.getD i 0 ≠ 0
  · left
    have h1 := Nat.find_spec hex
    have h2 : ∀ j, s ≤ j → j < Nat.find hex → b.bits.getD j 0 = 0 := by
      intro j hj1 hj2
      have := Nat.find_min hex hj2
      by_contra hne
      exact this ⟨hj1, by omega, hne⟩
    generalize Nat.find hex = i at h1 h2
    obtain ⟨hsi, hic, hne⟩ := h1
    obtain ⟨hp, hbit, hlow⟩ := lowbit_spec _ hne (h.word_lt i)
    have hscan := scan_first b (b.capacity - s) s i hsi (by omega) hne h2
    generalize lg (b.bits.getD i 0 ^^^ (b.bits.getD i 0 - 1)) = p at hp hbit hlow hscan
    refine ⟨p + i * 64, by omega, by omega, ?_, ?_, hscan⟩
    · rw [get_eq_testBit]
      have e1 : (p + i * 64) / 64 = i := by omega
      have e2 : (p + i * 64) % 64 = p := by omega
      rw [e1, e2]; exact hbit
    · intro e he1 he2
      rw [get_eq_testBit]
      by_cases hei : e / 64 = i
      · rw [hei]
        exact hlow _ (by omega)
      · rw [h2 (e / 64) (by omega) (by omega), Nat.zero_testBit]
  · right
    have hz : ∀ i, s ≤ i → i < b.capacity → b.bits.getD i 0 = 0 := by
      intro i h1 h2
      by_contra hne
      exact hex ⟨i, h1, h2, hne⟩
    refine ⟨?_, scan_all_zero b _ s (fun i h1 h2 => hz i h1 (by omega))⟩
    intro e he1 he2
    rw [get_eq_testBit, hz (e / 64) (by omega) (by omega), Nat.zero_testBit]

/-- Method `_Find_first()` returns the position of the first one bit stored in the
buffer, or `N` when the buffer is all zero. -/
theorem Find_first_spec (b : Bitset) (h : Valid b) :
    (∃ d, d < 64 * b.capacity ∧ get b d = true ∧ (∀ e, e < d → get b e = false) ∧
        Find_first b = d) ∨
    ((∀ e, e < 64 * b.capacity → get b e = false) ∧ Find_first b = b.N) := by
  have hr : List.range b.capacity = List.range' 0 (b.capacity - 0) := by
    rw [List.range_eq_range']; rfl
  unfold Find_first
  rw [hr]
  rcases scan_spec b h 0 with ⟨d, _, h2, h3, h4, h5⟩ | ⟨h1, h2⟩
  · exact Or.inl ⟨d, h2, h3, fun e he => h4 e (by omega) he, h5⟩
  · exact Or.inr ⟨fun e he => h1 e (by omega) he, h2⟩

end Bitset

/-- The word `bits[index >> 6] & ~((1ull << ((index & 63) + 1)) - 1)` of
`_Find_next` keeps the bits of the word above position `r`. -/
theorem testBit_above (w r q : Nat) (hq : q < 64) :
    (w &&& not64 ((1 <<< (r + 1)) - 1)).testBit q = (w.testBit q && decide (r < q)) := by
  rw [Nat.testBit_and, testBit_not64, Nat.one_shiftLeft, Nat.testBit_two_pow_sub_one]
  by_cases h : r < q
  · have : ¬ q < r + 1 := by omega
    simp [hq, h, this]
  · have : q < r + 1 := by omega
    simp [hq, h, this]

namespace Bitset

theorem Find_next_eq (b : Bitset) (index : Nat) :
    Find_next b index =
      if index % 64 ≠ 63 then
        if b.bits.getD (index / 64) 0 &&& not64 ((1 <<< (index % 64 + 1)) - 1) ≠ 0 then
          index / 64 * 64 +
            lg ((b.bits.getD (index / 64) 0 &&& not64 ((1 <<< (index % 64 + 1)) - 1)) ^^^
              ((b.bits.getD (index / 64) 0 &&& not64 ((1 <<< (index % 64 + 1)) - 1)) - 1))
        else scan b (List.range' (index / 64 + 1) (b.capacity - (index / 64 + 1)))
      else scan b (List.range' (index / 64 + 1) (b.capacity - (index / 64 + 1))) := by
  unfold Find_next
  simp only [shiftRight_six, and_63]

/-- Method `_Find_next(index)` returns the position of the first one bit stored in the
buffer above `index`, or `N` when there is none. -/
theorem Find_next_spec (b : Bitset) (h : Valid b) (index : Nat) (hi : index < b.N) :
    (∃ d, index < d ∧ d < 64 * b.capacity ∧ get b d = true ∧
        (∀ e, index < e → e < d → get b e = false) ∧ Find_next b index = d) ∨
    ((∀ e, index < e → e < 64 * b.capacity → get b e = false) ∧ Find_next b index = b.N) := by
  have hc := h.index_lt hi
  rw [Find_next_eq]
  -- the bits of the current word above `index`
  have hsame : ∀ e, index < e → e < 64 * (index / 64 + 1) →
      e / 64 = index / 64 ∧ index % 64 < e % 64 := by
    intro e h1 h2; omega
  by_cases h63 : index % 64 ≠ 63
  · rw [if_pos h63]
    generalize hbit : b.bits.getD (index / 64) 0 &&& not64 ((1 <<< (index % 64 + 1)) - 1) = bit
    have hbt : ∀ q, q < 64 →
        bit.testBit q = ((b.bits.getD (index / 64) 0).testBit q && decide (index % 64 < q)) := by
      intro q hq; rw [← hbit]; exact testBit_above _ _ q hq
    have hblt : bit < 2 ^ 64 := by
      rw [← hbit]; exact lt_of_le_of_lt Nat.and_le_left (h.word_lt _)
    by_cases hne : bit ≠ 0
    · rw [if_pos hne]
      left
      obtain ⟨hp, hpb, hlow⟩ := lowbit_spec bit hne hblt
      generalize lg (bit ^^^ (bit - 1)) = p at hp hpb hlow
      rw [hbt p hp] at hpb
      simp only [Bool.and_eq_true, decide_eq_true_eq] at hpb
      refine ⟨index / 64 * 64 + p, by omega, by omega, ?_, ?_, rfl⟩
      · rw [get_eq_testBit]
        have e1 : (index / 64 * 64 + p) / 64 = index / 64 := by omega
        have e2 : (index / 64 * 64 + p) % 64 = p := by omega
        rw [e1, e2]; exact hpb.1
      · intro e he1 he2
        obtain ⟨q1, q2⟩ := hsame e he1 (by omega)
        rw [get_eq_testBit, q1]
        have hl := hlow (e % 64) (by omega)
        rw [hbt _ (by omega)] at hl
        simpa [q2] using hl
    · rw [if_neg hne]
      have hz : bit = 0 := by simpa using hne
      have hcur : ∀ e, index < e → e < 64 * (index / 64 + 1) → get b e = false := by
        intro e he1 he2
        obtain ⟨q1, q2⟩ := hsame e he1 he2
        rw [get_eq_testBit, q1]
        have hl := hbt (e % 64) (by omega)
        rw [hz, Nat.zero_testBit] at hl
        simpa [q2] using hl.symm
      rcases scan_spec b h (index / 64 + 1) with ⟨d, h1, h2, h3, h4, h5⟩ | ⟨h1, h2⟩
      · left
        refine ⟨d, by omega, h2, h3, ?_, h5⟩
        intro e he1 he2
        by_cases hcase : e < 64 * (index / 64 + 1)
        · exact hcur e he1 hcase
        · exact h4 e (by omega) he2
      · right
        refine ⟨?_, h2⟩
        intro e he1 he2
        by_cases hcase : e < 64 * (index / 64 + 1)
        · exact hcur e he1 hcase
        · exact h1 e (by omega) he2
  · rw [if_neg h63]
    have h63' : index % 64 = 63 := by simpa using h63
    rcases scan_spec b h (index / 64 + 1) with ⟨d, h1, h2, h3, h4, h5⟩ | ⟨h1, h2⟩
    · left
      exact ⟨d, by omega, h2, h3, fun e he1 he2 => h4 e (by omega) he2, h5⟩
    · right
      exact ⟨fun e he1 he2 => h1 e (by omega) he2, h2⟩

end Bitset
/-! ## Enumeration of the set bits -/

theorem filter_range'_skip (p : Nat → Bool) (a n c : Nat) (hac : a ≤ c) (hcn : c ≤ a + n)
    (hz : ∀ e, a ≤ e → e < c → p e = false) :
    (List.range' a n).filter p = (List.range' c (a + n - c)).filter p := by
  have hsplit : List.range' a n = List.range' a (c - a) ++ List.range' c (a + n - c) := by
    have := List.range'_append a (c - a) (a + n - c) 1
    have e1 : a + 1 * (c - a) = c := by omega
    have e2 : a + n - c + (c - a) = n := by omega
    rw [e1, e2] at this
    exact this.symm
  rw [hsplit, List.filter_append]
  have hnil : (List.range' a (c - a)).filter p = [] := by
    rw [List.filter_eq_nil_iff]
    intro e he
    rw [List.mem_range'_1] at he
    rw [hz e he.1 (by omega)]
    exact Bool.false_ne_true
  rw [hnil, List.nil_append]

namespace Bitset

/-- In terms of logical bits: `_Find_first()` is a set position when it is below
`N`, and no logical bit below it is set. -/
theorem Find_first_facts (b : Bitset) (h : Valid b) :
    (Find_first b < b.N → get b (Find_first b) = true) ∧
      ∀ e, e < Find_first b → e < b.N → get b e = false := by
  have hcap := h.2.1
  rcases Find_first_spec b h with ⟨d, _, h2, h3, h4⟩ | ⟨h1, h2⟩
  · rw [h4]
    exact ⟨fun _ => h2, fun e he _ => h3 e he⟩
  · rw [h2]
    exact ⟨fun hlt => absurd hlt (lt_irrefl _), fun e _ he => h1 e (by omega)⟩

/-- In terms of logical bits: `_Find_next(index)` is above `index`, is a set
position when it is below `N`, and no logical bit strictly between is set. -/
theorem Find_next_facts (b : Bitset) (h : Valid b) (index : Nat) (hi : index < b.N) :
    index < Find_next b index ∧
      (Find_next b index < b.N → get b (Find_next b index) = true) ∧
      ∀ e, index < e → e < Find_next b index → e < b.N → get b e = false := by
  have hcap := h.2.1
  rcases Find_next_spec b h index hi with ⟨d, h1, _, h3, h4, h5⟩ | ⟨h1, h2⟩
  · rw [h5]
    exact ⟨h1, fun _ => h3, fun e he1 he2 _ => h4 e he1 he2⟩
  · rw [h2]
    exact ⟨hi, fun hlt => absurd hlt (lt_irrefl _), fun e he1 _ he3 => h1 e he1 (by omega)⟩

theorem enumFrom_eq (b : Bitset) (h : Valid b) (fuel : Nat) :
    ∀ i, (i < b.N → get b i = true) → b.N - i < fuel →
      enumFrom b fuel i = some ((List.range' i (b.N - i)).filter (fun j => get b j)) := by
  induction fuel with
  | zero => intro i _ hf; omega
  | succ fuel ih =>
    intro i hset hf
    unfold enumFrom
    by_cases hi : i < b.N
    · rw [if_pos hi]
      obtain ⟨f1, f2, f3⟩ := Find_next_facts b h i hi
      rw [ih (Find_next b i) f2 (by omega)]
      simp only [Option.map_some']
      congr 1
      have e1 : b.N - i = (b.N - i - 1) + 1 := by omega
      rw [e1, List.range'_succ, List.filter_cons_of_pos (by simpa using hset hi)]
      congr 1
      by_cases hJ : Find_next b i < b.N
      · rw [filter_range'_skip (fun j => get b j) (i + 1) (b.N - i - 1) (Find_next b i)
          (by omega) (by omega) (fun e he1 he2 => f3 e (by omega) he2 (by omega))]
        congr 2
        omega
      · have e2 : b.N - Find_next b i = 0 := by omega
        rw [e2, filter_range'_skip (fun j => get b j) (i + 1) (b.N - i - 1) b.N
          (by omega) (by omega) (fun e he1 he2 => f3 e (by omega) (by omega) he2)]
        have e3 : i + 1 + (b.N - i - 1) - b.N = 0 := by omega
        rw [e3]
        rfl
    · rw [if_neg hi]
      have e2 : b.N - i = 0 := by omega
      rw [e2]
      rfl

/-- The enumeration loop ends and visits exactly the set logical bits, in
ascending order. -/
theorem enumerate_eq (b : Bitset) (h : Valid b) (fuel : Nat) (hf : b.N < fuel) :
    enumerate b fuel = some ((List.range b.N).filter (fun j => get b j)) := by
  obtain ⟨f1, f2⟩ := Find_first_facts b h
  unfold enumerate
  rw [enumFrom_eq b h fuel (Find_first b) f1 (by omega), List.range_eq_range']
  congr 1
  by_cases hF : Find_first b < b.N
  · rw [filter_range'_skip (fun j => get b j) 0 b.N (Find_first b) (by omega) (by omega)
      (fun e _ he2 => f2 e he2 (by omega))]
    congr 2
    omega
  · have e2 : b.N - Find_first b = 0 := by omega
    rw [e2, filter_range'_skip (fun j => get b j) 0 b.N b.N (by omega) (by omega)
      (fun e _ he2 => f2 e (by omega) he2)]
    have e3 : 0 + b.N - b.N = 0 := by omega
    rw [e3]
    rfl

end Bitset
/-! ## Left shift: the loop computes the closed form -/
namespace Bitset

theorem shlStep_length (N cap : Nat) (src : List Nat) (blocks rem : Nat) (rb : List Nat) (i : Nat) :
    (shlStep N cap src blocks rem rb i).length = rb.length := by
  unfold shlStep
  simp only
  split_ifs <;> simp only [List.length_set]

theorem shlStep_getD (N cap : Nat) (src : List Nat) (blocks rem : Nat) (rb : List Nat) (i : Nat)
    (hbi : blocks ≤ i) (hic : i < cap) (hlen : rb.length = cap)
    (hinv : ∀ j, j < cap → rb.getD j 0 =
      if j < i then shlWord N cap src blocks rem j
      else if j = i then
        (if rem = 0 ∨ j ≤ blocks then 0 else src.getD (j - 1 - blocks) 0 >>> (BASE - rem))
      else 0) :
    ∀ j, j < cap → (shlStep N cap src blocks rem rb i).getD j 0 =
      if j < i + 1 then shlWord N cap src blocks rem j
      else if j = i + 1 then
        (if rem = 0 ∨ j ≤ blocks then 0 else src.getD (j - 1 - blocks) 0 >>> (BASE - rem))
      else 0 := by
  intro j hj
  have hi := hinv i hic
  simp only [lt_irrefl, if_false, if_true] at hi
  have hj0 := hinv j hj
  unfold shlStep
  simp only [base_sub_one, and_63]
  by_cases hlast : i + 1 = cap
  · simp only [hlast, if_true]
    by_cases hji : j = i
    · subst hji
      have h1 : j < cap := by omega
      have h2 : ¬ j < blocks := by omega
      simp only [h1, if_true, shlWord, h2, if_false, hlast, true_and]
      by_cases hrem : rem = 0
      · by_cases hN : N % 64 > 0
        · simp [-List.getD_eq_getElem?_getD, hrem, hN, getD_set, hlen, hic]
        · simp [-List.getD_eq_getElem?_getD, hrem, hN, getD_set, hlen, hic]
      · by_cases hN : N % 64 > 0
        · simp [-List.getD_eq_getElem?_getD, hrem, hN, getD_set, hlen, hic, hi]
        · simp [-List.getD_eq_getElem?_getD, hrem, hN, getD_set, hlen, hic, hi]
    · have h1 : j < i := by omega
      rw [if_pos hj]
      rw [if_pos h1] at hj0
      by_cases hrem : rem = 0
      · by_cases hN : N % 64 > 0
        · simp [-List.getD_eq_getElem?_getD, hrem, hN, getD_set, hlen, hic, Ne.symm hji, hj0]
        · simp [-List.getD_eq_getElem?_getD, hrem, hN, getD_set, hlen, hic, Ne.symm hji, hj0]
      · by_cases hN : N % 64 > 0
        · simp [-List.getD_eq_getElem?_getD, hrem, hN, getD_set, hlen, hic, Ne.symm hji, hj0]
        · simp [-List.getD_eq_getElem?_getD, hrem, hN, getD_set, hlen, hic, Ne.symm hji, hj0]
  · simp only [hlast, if_false]
    have hi1 := hinv (i + 1) (by omega)
    have e1 : ¬ (i + 1 < i) := by omega
    have e2 : ¬ (i + 1 = i) := by omega
    simp only [e1, e2, if_false] at hi1
    by_cases hji : j = i
    · subst hji
      have h1 : j < j + 1 := by omega
      have h2 : ¬ j < blocks := by omega
      have h3 : ¬ (j + 1 = cap ∧ N % 64 > 0) := fun h => hlast h.1
      simp only [h1, if_true, shlWord, h2, if_false, h3]
      by_cases hrem : rem = 0
      · simp [-List.getD_eq_getElem?_getD, hrem, getD_set, hlen, hic]
      · simp [-List.getD_eq_getElem?_getD, hrem, getD_set, hlen, hic, hi]
    · by_cases hji1 : j = i + 1
      · subst hji1
        have h1 : ¬ (i + 1 < i + 1) := by omega
        have h4 : ¬ (i + 1 ≤ blocks) := by omega
        have h5 : i + 1 - 1 - blocks = i - blocks := by omega
        simp only [h1, if_false, if_true]
        by_cases hrem : rem = 0
        · simp [-List.getD_eq_getElem?_getD, hrem, getD_set, hlen, hi1]
        · simp [-List.getD_eq_getElem?_getD, hrem, getD_set, hlen, hi1, h4, h5, hj]
      · by_cases h1 : j < i
        · have h2 : j < i + 1 := by omega
          rw [if_pos h2]
          rw [if_pos h1] at hj0
          by_cases hrem : rem = 0
          · simp [-List.getD_eq_getElem?_getD, hrem, getD_set, Ne.symm hji, hj0]
          · simp [-List.getD_eq_getElem?_getD, hrem, getD_set, Ne.symm hji, Ne.symm hji1, hj0]
        · have h2 : ¬ j < i + 1 := by omega
          rw [if_neg h2, if_neg hji1]
          rw [if_neg h1, if_neg hji] at hj0
          by_cases hrem : rem = 0
          · simp [-List.getD_eq_getElem?_getD, hrem, getD_set, Ne.symm hji, hj0]
          · simp [-List.getD_eq_getElem?_getD, hrem, getD_set, Ne.symm hji, Ne.symm hji1, hj0]

end Bitset

theorem testBit_wrap64 (x p : Nat) : (wrap64 x).testBit p = (decide (p < 64) && x.testBit p) := by
  unfold wrap64
  rw [Nat.testBit_mod_two_pow]

theorem wrap64_lt (x : Nat) : wrap64 x < 2 ^ 64 := Nat.mod_lt _ (by omega)

namespace Bitset

theorem shlLoop_inv (N cap : Nat) (src : List Nat) (blocks rem : Nat) (rb0 : List Nat)
    (hlen : rb0.length = cap) (hz : ∀ j, rb0.getD j 0 = 0) (n : Nat) (hn : blocks + n ≤ cap) :
    ((List.range' blocks n).foldl (shlStep N cap src blocks rem) rb0).length = cap ∧
    ∀ j, j < cap → ((List.range' blocks n).foldl (shlStep N cap src blocks rem) rb0).getD j 0 =
      if j < blocks + n then shlWord N cap src blocks rem j
      else if j = blocks + n then
        (if rem = 0 ∨ j ≤ blocks then 0 else src.getD (j - 1 - blocks) 0 >>> (BASE - rem))
      else 0 := by
  induction n with
  | zero =>
    refine ⟨hlen, fun j _ => ?_⟩
    simp only [List.range'_zero, List.foldl_nil, Nat.add_zero, hz]
    by_cases h1 : j < blocks
    · simp only [h1, if_true, shlWord]
    · by_cases h2 : j = blocks
      · subst h2
        simp only [lt_irrefl, if_false, if_true, le_refl, or_true]
      · simp only [h1, h2, if_false]
  | succ n ih =>
    obtain ⟨ih1, ih2⟩ := ih (by omega)
    rw [List.range'_concat, List.foldl_append]
    simp only [List.foldl_cons, List.foldl_nil, Nat.one_mul]
    refine ⟨by rw [shlStep_length, ih1], ?_⟩
    have := shlStep_getD N cap src blocks rem _ (blocks + n) (by omega) (by omega) ih1 ih2
    intro j hj
    rw [this j hj]
    rfl

/-- Bit `p` of the assembled word (carry from the word below, low part from the
word itself) is bit `64 * j + p - shift` of the source. -/
theorem testBit_shl_core (src : List Nat) (hsrc : ∀ i, src.getD i 0 < 2 ^ 64)
    (blocks rem j p : Nat) (hrem : rem < 64) (hjb : blocks ≤ j) (hp : p < 64) :
    ((if rem = 0 ∨ j ≤ blocks then 0 else src.getD (j - 1 - blocks) 0 >>> (BASE - rem)) |||
      (if rem = 0 then src.getD (j - blocks) 0
       else wrap64 (src.getD (j - blocks) 0 <<< rem))).testBit p =
    (decide (64 * blocks + rem ≤ 64 * j + p) &&
      (src.getD ((64 * j + p - (64 * blocks + rem)) / 64) 0).testBit
        ((64 * j + p - (64 * blocks + rem)) % 64)) := by
  rw [Nat.testBit_or]
  by_cases h0 : rem = 0
  · subst h0
    have e1 : (64 * j + p - (64 * blocks + 0)) / 64 = j - blocks := by omega
    have e2 : (64 * j + p - (64 * blocks + 0)) % 64 = p := by omega
    have e3 : 64 * blocks + 0 ≤ 64 * j + p := by omega
    rw [e1, e2]
    have e4 : 64 * blocks ≤ 64 * j + p := by omega
    simp [e4]
  · have hB : BASE - rem = 64 - rem := rfl
    simp only [h0, false_or, if_false, hB]
    rw [testBit_wrap64, Nat.testBit_shiftLeft]
    by_cases hpr : rem ≤ p
    · have e1 : (64 * j + p - (64 * blocks + rem)) / 64 = j - blocks := by omega
      have e2 : (64 * j + p - (64 * blocks + rem)) % 64 = p - rem := by omega
      have e3 : 64 * blocks + rem ≤ 64 * j + p := by omega
      rw [e1, e2]
      have hhi : (if j ≤ blocks then 0 else src.getD (j - 1 - blocks) 0 >>> (64 - rem)).testBit p
          = false := by
        split
        · exact Nat.zero_testBit _
        · rw [Nat.testBit_shiftRight]
          exact testBit_eq_false_of_lt _ _ (hsrc _) (by omega)
      rw [hhi]
      simp [hp, hpr, e3]
    · have hlo : (decide (p < 64) && (decide (p ≥ rem) &&
          (src.getD (j - blocks) 0).testBit (p - rem))) = false := by
        simp [hpr]
      rw [hlo, Bool.or_false]
      by_cases hjb2 : j ≤ blocks
      · have e3 : ¬ (64 * blocks + rem ≤ 64 * j + p) := by omega
        simp [hjb2, e3]
      · have e1 : (64 * j + p - (64 * blocks + rem)) / 64 = j - 1 - blocks := by omega
        have e2 : (64 * j + p - (64 * blocks + rem)) % 64 = 64 - rem + p := by omega
        have e3 : 64 * blocks + rem ≤ 64 * j + p := by omega
        rw [e1, e2, if_neg hjb2, Nat.testBit_shiftRight]
        simp [e3]

theorem shl_core_lt (src : List Nat) (hsrc : ∀ i, src.getD i 0 < 2 ^ 64)
    (blocks rem j : Nat) :
    ((if rem = 0 ∨ j ≤ blocks then 0 else src.getD (j - 1 - blocks) 0 >>> (BASE - rem)) |||
      (if rem = 0 then src.getD (j - blocks) 0
       else wrap64 (src.getD (j - blocks) 0 <<< rem))) < 2 ^ 64 := by
  apply Nat.or_lt_two_pow
  · split
    · omega
    · rw [Nat.shiftRight_eq_div_pow]
      exact lt_of_le_of_lt (Nat.div_le_self _ _) (hsrc _)
  · split
    · exact hsrc _
    · exact wrap64_lt _

theorem shlWord_lt (N cap : Nat) (src : List Nat) (hsrc : ∀ i, src.getD i 0 < 2 ^ 64)
    (blocks rem j : Nat) : shlWord N cap src blocks rem j < 2 ^ 64 := by
  unfold shlWord
  split
  · omega
  · split
    · exact lt_of_le_of_lt Nat.and_le_left (shl_core_lt src hsrc blocks rem j)
    · exact shl_core_lt src hsrc blocks rem j

/-- Bit `p` of word `j` of the result of the left shift is logical bit
`64 * j + p - shift` of the source, provided the destination is below `N`. -/
theorem testBit_shlWord (N cap : Nat) (src : List Nat) (hsrc : ∀ i, src.getD i 0 < 2 ^ 64)
    (blocks rem j p : Nat) (hrem : rem < 64) (hcap : cap = (N + 63) / 64) (hj : j < cap)
    (hp : p < 64) :
    (shlWord N cap src blocks rem j).testBit p =
      (decide (64 * blocks + rem ≤ 64 * j + p ∧ 64 * j + p < N) &&
        (src.getD ((64 * j + p - (64 * blocks + rem)) / 64) 0).testBit
          ((64 * j + p - (64 * blocks + rem)) % 64)) := by
  unfold shlWord
  by_cases hjb : j < blocks
  · rw [if_pos hjb]
    have : ¬ (64 * blocks + rem ≤ 64 * j + p ∧ 64 * j + p < N) := by omega
    simp [this]
  · rw [if_neg hjb]
    by_cases hm : j + 1 = cap ∧ N % 64 > 0
    · rw [if_pos hm, Nat.testBit_and, testBit_tailMask,
        testBit_shl_core src hsrc blocks rem j p hrem (by omega) hp]
      by_cases hk : 64 * blocks + rem ≤ 64 * j + p
      · by_cases hd : 64 * j + p < N
        · have : p < N % 64 := by omega
          simp [hk, hd, this]
        · have : ¬ p < N % 64 := by omega
          simp [hk, hd, this]
      · simp [hk]
    · rw [if_neg hm, testBit_shl_core src hsrc blocks rem j p hrem (by omega) hp]
      have hd : 64 * j + p < N := by
        by_cases hN : N % 64 > 0
        · have : j + 1 ≠ cap := fun h => hm ⟨h, hN⟩
          omega
        · omega
      simp [hd]

end Bitset
/-! ## Left shift: the result -/

theorem shiftRight_two_base (i : Nat) : i >>> TWO_BASE = i / 64 := shiftRight_six i

theorem and_base_sub_one (i : Nat) : i &&& (BASE - 1) = i % 64 := and_63 i

namespace Bitset

theorem shlAssign_N (b : Bitset) (k : Nat) : (shlAssign b k).N = b.N := by
  unfold shlAssign
  simp only
  split <;> rfl

theorem shlAssign_capacity (b : Bitset) (k : Nat) : (shlAssign b k).capacity = (ctor b.N).capacity := by
  unfold shlAssign
  simp only
  split <;> rfl

theorem shlAssign_bits (b : Bitset) (k : Nat) (hk : k < b.N) :
    (shlAssign b k).bits =
      (List.range' (k / 64) (b.capacity - k / 64)).foldl
        (shlStep b.N b.capacity b.bits (k / 64) (k % 64)) (ctor b.N).bits := by
  unfold shlAssign
  simp only [ge_iff_le, not_le.mpr hk, if_false, shiftRight_two_base, and_base_sub_one]

/-- The words of the result of `operator<<=` for a shift below `N`. -/
theorem shlAssign_getD (b : Bitset) (h : Valid b) (k : Nat) (hk : k < b.N) :
    (shlAssign b k).bits.length = b.capacity ∧
    ∀ j, j < b.capacity →
      (shlAssign b k).bits.getD j 0 = shlWord b.N b.capacity b.bits (k / 64) (k % 64) j := by
  have hcap := h.2.1
  have hc : (ctor b.N).capacity = b.capacity := by rw [ctor_capacity b.N h.1, hcap]
  have hl : (ctor b.N).bits.length = b.capacity := by rw [ctor_length, hc]
  have hb : k / 64 + (b.capacity - k / 64) ≤ b.capacity := by omega
  obtain ⟨h1, h2⟩ := shlLoop_inv b.N b.capacity b.bits (k / 64) (k % 64) (ctor b.N).bits hl
    (ctor_bits_getD b.N) (b.capacity - k / 64) hb
  rw [shlAssign_bits b k hk]
  refine ⟨h1, fun j hj => ?_⟩
  rw [h2 j hj, if_pos (by omega)]

theorem shlAssign_valid (b : Bitset) (h : Valid b) (k : Nat) : Valid (shlAssign b k) := by
  by_cases hk : k < b.N
  · obtain ⟨h1, h2⟩ := shlAssign_getD b h k hk
    have hc : (ctor b.N).capacity = b.capacity := by rw [ctor_capacity b.N h.1, h.2.1]
    refine ⟨by rw [shlAssign_N]; exact h.1, ?_, ?_, ?_⟩
    · rw [shlAssign_capacity, shlAssign_N, hc]; exact h.2.1
    · rw [shlAssign_capacity, hc]; exact h1
    · apply forall_lt_of_getD
      intro j hj
      rw [h1] at hj
      rw [h2 j hj]
      exact shlWord_lt _ _ _ h.word_lt _ _ _
  · have : shlAssign b k = ctor b.N := by
      unfold shlAssign
      simp only [ge_iff_le, not_lt.mp hk, if_true]
    rw [this]
    exact ctor_valid b.N h.1

/-- Bit `i` of the buffer of the result of `operator<<=`, for every position of
the buffer: it is set when `shift <= i < N` and bit `i - shift` of the source is
set. -/
theorem get_shlAssign_raw (b : Bitset) (h : Valid b) (k i : Nat) (hi : i < 64 * b.capacity) :
    get (shlAssign b k) i = (decide (k ≤ i ∧ i < b.N) && get b (i - k)) := by
  by_cases hk : k < b.N
  · obtain ⟨_, h2⟩ := shlAssign_getD b h k hk
    rw [get_eq_testBit, h2 (i / 64) (by omega),
      testBit_shlWord b.N b.capacity b.bits h.word_lt (k / 64) (k % 64) (i / 64) (i % 64)
        (Nat.mod_lt _ (by omega)) h.2.1 (by omega) (Nat.mod_lt _ (by omega)),
      get_eq_testBit]
    have e1 : 64 * (i / 64) + i % 64 = i := by omega
    have e2 : 64 * (k / 64) + k % 64 = k := by omega
    rw [e1, e2]
  · have : shlAssign b k = ctor b.N := by
      unfold shlAssign
      simp only [ge_iff_le, not_lt.mp hk, if_true]
    rw [this, get_ctor]
    have : ¬ (k ≤ i ∧ i < b.N) := by omega
    simp [this]

theorem get_shlAssign (b : Bitset) (h : Valid b) (k i : Nat) (hi : i < b.N) :
    get (shlAssign b k) i = (decide (k ≤ i) && get b (i - k)) := by
  have hcap := h.2.1
  rw [get_shlAssign_raw b h k i (by omega)]
  simp [hi]

theorem shlAssign_tailClean (b : Bitset) (h : Valid b) (k : Nat) : TailClean (shlAssign b k) := by
  intro hN p hp
  rw [shlAssign_N] at hN hp
  have hcap := h.2.1
  have hc : (shlAssign b k).capacity = b.capacity := by
    rw [shlAssign_capacity, ctor_capacity b.N h.1, hcap]
  rw [hc]
  by_cases hp64 : p < 64
  · have hg := get_shlAssign_raw b h k (64 * (b.capacity - 1) + p) (by omega)
    rw [get_add _ _ _ hp64] at hg
    rw [hg]
    have : ¬ (k ≤ 64 * (b.capacity - 1) + p ∧ 64 * (b.capacity - 1) + p < b.N) := by omega
    simp [this]
  · exact testBit_eq_false_of_lt _ _ ((shlAssign_valid b h k).word_lt _) (by omega)

theorem shl_eq (b : Bitset) (h : Valid b) (k : Nat) : shl b k = shlAssign b k := by
  unfold shl
  rw [copy_eq b h.2.2.1]

end Bitset
/-! ## Right shift: the loop computes the closed form -/
namespace Bitset

theorem shrStep_length (src : List Nat) (blocks rem : Nat) (rb : List Nat) (i : Nat) :
    (shrStep src blocks rem rb i).length = rb.length := by
  unfold shrStep
  simp only
  split_ifs <;> simp only [List.length_set]

theorem shrStep_getD (src : List Nat) (blocks rem n : Nat) (rb : List Nat) (i : Nat)
    (hin : i < n) (hlen : n ≤ rb.length)
    (hinv : ∀ j, rb.getD j 0 =
      if i + 1 ≤ j then shrWord src blocks rem n j
      else if j + 1 = i + 1 then
        (if rem = 0 ∨ n ≤ j + 1 then 0 else wrap64 (src.getD (j + 1 + blocks) 0 <<< (BASE - rem)))
      else 0) :
    ∀ j, (shrStep src blocks rem rb i).getD j 0 =
      if i ≤ j then shrWord src blocks rem n j
      else if j + 1 = i then
        (if rem = 0 ∨ n ≤ j + 1 then 0 else wrap64 (src.getD (j + 1 + blocks) 0 <<< (BASE - rem)))
      else 0 := by
  intro j
  have hi := hinv i
  have e0 : ¬ (i + 1 ≤ i) := by omega
  simp only [e0, if_false, if_true] at hi
  have hj0 := hinv j
  have hil : i < rb.length := by omega
  unfold shrStep
  by_cases hji : j = i
  · subst hji
    have h1 : ¬ n ≤ j := by omega
    simp only [le_refl, if_true, shrWord, h1, if_false]
    by_cases hrem : rem = 0
    · simp [-List.getD_eq_getElem?_getD, hrem, getD_set, hil]
    · by_cases h0 : j = 0
      · subst h0
        simp [-List.getD_eq_getElem?_getD, hrem, getD_set, hil, hi]
      · have h2 : ¬ (j - 1 = j) := by omega
        simp [-List.getD_eq_getElem?_getD, hrem, getD_set, hil, hi, h0, h2]
  · by_cases hji1 : j + 1 = i
    · have h1 : ¬ i ≤ j := by omega
      have h2 : ¬ (i + 1 ≤ j) := by omega
      have h3 : ¬ (j + 1 = i + 1) := by omega
      have h4 : i - 1 = j := by omega
      have h5 : ¬ (i = 0) := by omega
      have h6 : ¬ (n ≤ j + 1) := by omega
      have h7 : j < rb.length := by omega
      have h8 : j + 1 + blocks = i + blocks := by omega
      rw [if_neg h2, if_neg h3] at hj0
      rw [if_neg h1, if_pos hji1]
      by_cases hrem : rem = 0
      · simp [-List.getD_eq_getElem?_getD, hrem, getD_set, Ne.symm hji, hj0]
      · simp [-List.getD_eq_getElem?_getD, hrem, getD_set, Ne.symm hji, hj0, h4, h5, h6, h7, h8]
    · have h4 : ¬ (i - 1 = j) := by omega
      by_cases h1 : i ≤ j
      · have h2 : i + 1 ≤ j := by omega
        rw [if_pos h2] at hj0
        rw [if_pos h1]
        by_cases hrem : rem = 0
        · simp [-List.getD_eq_getElem?_getD, hrem, getD_set, Ne.symm hji, hj0]
        · by_cases h0 : i = 0
          · subst h0
            simp [-List.getD_eq_getElem?_getD, hrem, getD_set, Ne.symm hji, hj0]
          · simp [-List.getD_eq_getElem?_getD, hrem, getD_set, Ne.symm hji, hj0, h0, h4]
      · have h2 : ¬ (i + 1 ≤ j) := by omega
        have h3 : ¬ (j + 1 = i + 1) := by omega
        rw [if_neg h2, if_neg h3] at hj0
        rw [if_neg h1, if_neg hji1]
        by_cases hrem : rem = 0
        · simp [-List.getD_eq_getElem?_getD, hrem, getD_set, Ne.symm hji, hj0]
        · by_cases h0 : i = 0
          · subst h0
            simp [-List.getD_eq_getElem?_getD, hrem, getD_set, Ne.symm hji, hj0]
          · simp [-List.getD_eq_getElem?_getD, hrem, getD_set, Ne.symm hji, hj0, h0, h4]

theorem shrLoop_inv (src : List Nat) (blocks rem n : Nat) (m : Nat) :
    ∀ rb : List Nat, m ≤ n → n ≤ rb.length →
      (∀ j, rb.getD j 0 =
        if m ≤ j then shrWord src blocks rem n j
        else if j + 1 = m then
          (if rem = 0 ∨ n ≤ j + 1 then 0
           else wrap64 (src.getD (j + 1 + blocks) 0 <<< (BASE - rem)))
        else 0) →
      ((List.range m).reverse.foldl (shrStep src blocks rem) rb).length = rb.length ∧
      ∀ j, ((List.range m).reverse.foldl (shrStep src blocks rem) rb).getD j 0 =
        shrWord src blocks rem n j := by
  induction m with
  | zero =>
    intro rb _ _ hinv
    refine ⟨rfl, fun j => ?_⟩
    have := hinv j
    simpa using this
  | succ m ih =>
    intro rb hmn hlen hinv
    rw [List.range_succ, List.reverse_append]
    simp only [List.reverse_cons, List.reverse_nil, List.nil_append, List.singleton_append,
      List.foldl_cons]
    have hstep := shrStep_getD src blocks rem n rb m (by omega) hlen hinv
    have hl := shrStep_length src blocks rem rb m
    obtain ⟨r1, r2⟩ := ih (shrStep src blocks rem rb m) (by omega) (by rw [hl]; exact hlen) hstep
    exact ⟨by rw [r1, hl], r2⟩

end Bitset
/-! ## Right shift: the result -/
namespace Bitset

/-- Bit `p` of word `j` of the result of the right shift is the bit stored at
position `64 * j + p + shift` of the source buffer. -/
theorem testBit_shrWord (src : List Nat) (hsrc : ∀ i, src.getD i 0 < 2 ^ 64)
    (blocks rem n j p : Nat) (hrem : rem < 64) (hp : p < 64)
    (hout : ∀ i, n + blocks ≤ i → src.getD i 0 = 0) :
    (shrWord src blocks rem n j).testBit p =
      (src.getD ((64 * j + p + (64 * blocks + rem)) / 64) 0).testBit
        ((64 * j + p + (64 * blocks + rem)) % 64) := by
  unfold shrWord
  by_cases hnj : n ≤ j
  · rw [if_pos hnj, hout _ (by omega), Nat.zero_testBit, Nat.zero_testBit]
  · rw [if_neg hnj, Nat.testBit_or]
    by_cases h0 : rem = 0
    · subst h0
      have e1 : (64 * j + p + (64 * blocks + 0)) / 64 = j + blocks := by omega
      have e2 : (64 * j + p + (64 * blocks + 0)) % 64 = p := by omega
      rw [e1, e2]
      simp
    · have hB : BASE - rem = 64 - rem := rfl
      simp only [h0, false_or, if_false, hB]
      rw [Nat.testBit_shiftRight]
      by_cases hpr : p + rem < 64
      · have e1 : (64 * j + p + (64 * blocks + rem)) / 64 = j + blocks := by omega
        have e2 : (64 * j + p + (64 * blocks + rem)) % 64 = rem + p := by omega
        rw [e1, e2]
        have hhi : (if n ≤ j + 1 then 0
            else wrap64 (src.getD (j + 1 + blocks) 0 <<< (64 - rem))).testBit p = false := by
          split
          · exact Nat.zero_testBit _
          · rw [testBit_wrap64, Nat.testBit_shiftLeft]
            have : ¬ (p ≥ 64 - rem) := by omega
            simp [this]
        rw [hhi, Bool.false_or]
      · have e1 : (64 * j + p + (64 * blocks + rem)) / 64 = j + 1 + blocks := by omega
        have e2 : (64 * j + p + (64 * blocks + rem)) % 64 = p - (64 - rem) := by omega
        rw [e1, e2, testBit_eq_false_of_lt _ _ (hsrc _) (by omega), Bool.or_false]
        by_cases hn1 : n ≤ j + 1
        · rw [if_pos hn1, hout _ (by omega), Nat.zero_testBit, Nat.zero_testBit]
        · rw [if_neg hn1, testBit_wrap64, Nat.testBit_shiftLeft]
          have : p ≥ 64 - rem := by omega
          simp [hp, this]

theorem shrWord_lt (src : List Nat) (hsrc : ∀ i, src.getD i 0 < 2 ^ 64)
    (blocks rem n j : Nat) : shrWord src blocks rem n j < 2 ^ 64 := by
  unfold shrWord
  split
  · omega
  · apply Nat.or_lt_two_pow
    · split
      · omega
      · exact wrap64_lt _
    · split
      · exact hsrc _
      · rw [Nat.shiftRight_eq_div_pow]
        exact lt_of_le_of_lt (Nat.div_le_self _ _) (hsrc _)

theorem toInt_of_lt (x : Nat) (h : x < 2 ^ 31) : toInt x = (x : Int) := by
  unfold toInt
  have e : x % 2 ^ 32 = x := Nat.mod_eq_of_lt (by omega)
  rw [e, if_pos h]

theorem downFrom_natCast (x : Nat) : downFrom (x : Int) = (List.range (x + 1)).reverse := by
  unfold downFrom
  have : ¬ ((x : Int) < 0) := by omega
  rw [if_neg this, Int.toNat_natCast]

theorem shrAssign_N (b : Bitset) (k : Nat) : (shrAssign b k).N = b.N := by
  unfold shrAssign
  simp only
  split <;> rfl

theorem shrAssign_capacity (b : Bitset) (k : Nat) : (shrAssign b k).capacity = (ctor b.N).capacity := by
  unfold shrAssign
  simp only
  split <;> rfl

/-- The loop of `operator>>=` when the counter fits an `int`: it runs over the
counters `capacity - blocks - 1, ..., 0`. -/
theorem shrAssign_bits (b : Bitset) (h : Valid b) (k : Nat) (hk : k < b.N)
    (h31 : b.capacity - k / 64 ≤ 2 ^ 31) :
    (shrAssign b k).bits =
      (List.range (b.capacity - k / 64)).reverse.foldl
        (shrStep b.bits (k / 64) (k % 64)) (ctor b.N).bits := by
  have hcap := h.2.1
  have hN := h.1
  unfold shrAssign
  simp only [ge_iff_le, not_le.mpr hk, if_false, shiftRight_two_base, and_base_sub_one]
  have e1 : wrap64 (b.capacity + 2 ^ 64 - k / 64 - 1) = b.capacity - k / 64 - 1 := by
    unfold wrap64
    omega
  rw [e1, toInt_of_lt _ (by omega), downFrom_natCast]
  have e2 : b.capacity - k / 64 - 1 + 1 = b.capacity - k / 64 := by omega
  rw [e2]

theorem shrAssign_getD (b : Bitset) (h : Valid b) (k : Nat) (hk : k < b.N)
    (h31 : b.capacity - k / 64 ≤ 2 ^ 31) :
    (shrAssign b k).bits.length = b.capacity ∧
    ∀ j, (shrAssign b k).bits.getD j 0 =
      shrWord b.bits (k / 64) (k % 64) (b.capacity - k / 64) j := by
  have hcap := h.2.1
  have hc : (ctor b.N).capacity = b.capacity := by rw [ctor_capacity b.N h.1, hcap]
  have hl : (ctor b.N).bits.length = b.capacity := by rw [ctor_length, hc]
  rw [shrAssign_bits b h k hk h31]
  have := shrLoop_inv b.bits (k / 64) (k % 64) (b.capacity - k / 64) (b.capacity - k / 64)
    (ctor b.N).bits (le_refl _) (by rw [hl]; omega) (by
      intro j
      rw [ctor_bits_getD]
      by_cases h1 : b.capacity - k / 64 ≤ j
      · simp only [h1, if_true, shrWord]
      · by_cases h2 : j + 1 = b.capacity - k / 64
        · have : b.capacity - k / 64 ≤ j + 1 := by omega
          simp only [h1, h2, if_false, if_true, le_refl, or_true]
        · simp only [h1, h2, if_false])
  exact ⟨by rw [this.1, hl], this.2⟩

theorem shrAssign_valid (b : Bitset) (h : Valid b) (k : Nat)
    (h31 : b.capacity - k / 64 ≤ 2 ^ 31) : Valid (shrAssign b k) := by
  by_cases hk : k < b.N
  · obtain ⟨h1, h2⟩ := shrAssign_getD b h k hk h31
    have hc : (ctor b.N).capacity = b.capacity := by rw [ctor_capacity b.N h.1, h.2.1]
    refine ⟨by rw [shrAssign_N]; exact h.1, ?_, ?_, ?_⟩
    · rw [shrAssign_capacity, shrAssign_N, hc]; exact h.2.1
    · rw [shrAssign_capacity, hc]; exact h1
    · apply forall_lt_of_getD
      intro j _
      rw [h2 j]
      exact shrWord_lt _ h.word_lt _ _ _ _
  · have : shrAssign b k = ctor b.N := by
      unfold shrAssign
      simp only [ge_iff_le, not_lt.mp hk, if_true]
    rw [this]
    exact ctor_valid b.N h.1

/-- Bit `i` of the result of `operator>>=`, for a shift below `N` and a loop
counter that fits an `int`: the bit stored at position `i + shift` of the source
buffer, whether or not that position is below `N`. -/
theorem get_shrAssign_raw (b : Bitset) (h : Valid b) (k i : Nat) (hk : k < b.N)
    (h31 : b.capacity - k / 64 ≤ 2 ^ 31) :
    get (shrAssign b k) i = get b (i + k) := by
  have hcap := h.2.1
  obtain ⟨_, h2⟩ := shrAssign_getD b h k hk h31
  rw [get_eq_testBit, h2,
    testBit_shrWord b.bits h.word_lt (k / 64) (k % 64) (b.capacity - k / 64) (i / 64) (i % 64)
      (Nat.mod_lt _ (by omega)) (Nat.mod_lt _ (by omega))
      (fun j hj => List.getD_eq_default _ _ (by rw [h.2.2.1]; omega)),
    get_eq_testBit]
  have e1 : 64 * (i / 64) + i % 64 + (64 * (k / 64) + k % 64) = i + k := by omega
  rw [e1]

/-- Bits stored beyond `N` read as zero on a vector with a clean tail. -/
theorem get_of_tailClean (b : Bitset) (h : Valid b) (ht : TailClean b) (e : Nat) (he : b.N ≤ e) :
    get b e = false := by
  have hcap := h.2.1
  rw [get_eq_testBit]
  by_cases hin : e / 64 < b.capacity
  · have hN : b.N % 64 ≠ 0 := by omega
    have e1 : e / 64 = b.capacity - 1 := by omega
    rw [e1]
    exact ht hN (e % 64) (by omega)
  · rw [List.getD_eq_default _ _ (by rw [h.2.2.1]; omega), Nat.zero_testBit]

theorem get_shrAssign (b : Bitset) (h : Valid b) (ht : TailClean b) (k i : Nat)
    (h31 : b.capacity - k / 64 ≤ 2 ^ 31) :
    get (shrAssign b k) i = (decide (i + k < b.N) && get b (i + k)) := by
  by_cases hk : k < b.N
  · rw [get_shrAssign_raw b h k i hk h31]
    by_cases hik : i + k < b.N
    · simp [hik]
    · rw [get_of_tailClean b h ht (i + k) (by omega)]
      simp
  · have : shrAssign b k = ctor b.N := by
      unfold shrAssign
      simp only [ge_iff_le, not_lt.mp hk, if_true]
    rw [this, get_ctor]
    have : ¬ (i + k < b.N) := by omega
    simp [this]

theorem shr_eq (b : Bitset) (h : Valid b) (k : Nat) : shr b k = shrAssign b k := by
  unfold shr
  rw [copy_eq b h.2.2.1]

end Bitset
/-! ## The signed loop counter of the right shift -/
namespace Bitset


theorem wide_valid : Valid wide := by
  refine ⟨by decide, by decide, ?_, ?_⟩
  · show (1 :: List.replicate (2 ^ 31) 0).length = 2 ^ 31 + 1
    rw [List.length_cons, List.length_replicate]
  · intro w hw
    have hw2 : w ∈ 1 :: List.replicate (2 ^ 31) 0 := hw
    rw [List.mem_cons] at hw2
    rcases hw2 with rfl | hw2
    · omega
    · rw [List.eq_of_mem_replicate hw2]; omega

/-- When the `int` loop counter of `operator>>=` starts negative the loop body
never runs and the result is the cleared `res(N)`. -/
theorem shrAssign_skipped (b : Bitset) (k : Nat) 
    (hneg : toInt (wrap64 (b.capacity + 2 ^ 64 - k / 64 - 1)) < 0) :
    shrAssign b k = ctor b.N := by
  unfold shrAssign
  simp only [shiftRight_two_base, and_base_sub_one]
  split
  · rfl
  · unfold downFrom
    rw [if_pos hneg]
    rfl

end Bitset
/-! ## Scanning a vector with a clean tail -/
namespace Bitset

/-- On a vector with a clean tail `_Find_first()` is the smallest set position
below `N`, and `N` when no bit below `N` is set. -/
theorem Find_first_of_tailClean (v : Bitset) (h : Valid v) (ht : TailClean v) :
    ((∀ i, i < v.N → get v i = false) → Find_first v = v.N) ∧
    ∀ j, j < v.N → get v j = true → (∀ i, i < j → get v i = false) → Find_first v = j := by
  have hcap := h.2.1
  rcases Find_first_spec v h with ⟨d, _, h2, h3, h4⟩ | ⟨h1, h2⟩
  · have hd : d < v.N := by
      by_contra hge
      rw [get_of_tailClean v h ht d (by omega)] at h2
      exact Bool.false_ne_true h2
    refine ⟨fun hall => ?_, fun j hj hgj hlow => ?_⟩
    · rw [hall d hd] at h2
      exact absurd h2 Bool.false_ne_true
    · rw [h4]
      rcases Nat.lt_trichotomy d j with hlt | heq | hgt
      · rw [hlow d hlt] at h2
        exact absurd h2 Bool.false_ne_true
      · exact heq
      · rw [h3 j hgt] at hgj
        exact absurd hgj Bool.false_ne_true
  · refine ⟨fun _ => h2, fun j hj hgj _ => ?_⟩
    rw [h1 j (by omega)] at hgj
    exact absurd hgj Bool.false_ne_true

/-- On a vector with a clean tail `_Find_next(index)` is the smallest set
position above `index` and below `N`, and `N` when there is none. -/
theorem Find_next_of_tailClean (v : Bitset) (h : Valid v) (ht : TailClean v) (index : Nat)
    (hi : index < v.N) :
    ((∀ i, index < i → i < v.N → get v i = false) → Find_next v index = v.N) ∧
    ∀ j, index < j → j < v.N → get v j = true → (∀ i, index < i → i < j → get v i = false) →
      Find_next v index = j := by
  have hcap := h.2.1
  rcases Find_next_spec v h index hi with ⟨d, h0, _, h2, h3, h4⟩ | ⟨h1, h2⟩
  · have hd : d < v.N := by
      by_contra hge
      rw [get_of_tailClean v h ht d (by omega)] at h2
      exact Bool.false_ne_true h2
    refine ⟨fun hall => ?_, fun j hij hj hgj hlow => ?_⟩
    · rw [hall d h0 hd] at h2
      exact absurd h2 Bool.false_ne_true
    · rw [h4]
      rcases Nat.lt_trichotomy d j with hlt | heq | hgt
      · rw [hlow d h0 hlt] at h2
        exact absurd h2 Bool.false_ne_true
      · exact heq
      · rw [h3 j hij hgt] at hgj
        exact absurd hgj Bool.false_ne_true
  · refine ⟨fun _ => h2, fun j hij hj hgj _ => ?_⟩
    rw [h1 j hij (by omega)] at hgj
    exact absurd hgj Bool.false_ne_true

end Bitset
namespace Bitset

theorem ctor_bits (n : Nat) : (ctor n).bits = List.replicate (ctor n).capacity 0 := by
  apply list_ext_getD
  · rw [ctor_length, List.length_replicate]
  · intro j _
    rw [ctor_bits_getD, getD_replicate_zero]

/-- The state `wide` is the one the program reaches by
`Bitset b(137438953536); b.set(0);`. -/
theorem wide_reachable : set_at (ctor (2 ^ 37 + 64)) 0 = wide := by
  have hc : (ctor (2 ^ 37 + 64)).capacity = 2 ^ 31 + 1 := by
    rw [ctor_capacity _ (by decide)]
    decide
  have hb : (ctor (2 ^ 37 + 64)).bits = 0 :: List.replicate (2 ^ 31) 0 := by
    rw [ctor_bits, hc, List.replicate_succ]
  unfold set_at wide
  rw [hb, hc]
  rfl

end Bitset
/-! ## Bitwise operators -/
namespace Bitset

theorem andAssign_N (a b : Bitset) : (andAssign a b).N = a.N := rfl
theorem orAssign_N (a b : Bitset) : (orAssign a b).N = a.N := rfl
theorem xorAssign_N (a b : Bitset) : (xorAssign a b).N = a.N := rfl

theorem andAssign_bits_getD (a b : Bitset) (h : a.capacity ≤ a.bits.length) (j : Nat) :
    (andAssign a b).bits.getD j 0 =
      if j < a.capacity then a.bits.getD j 0 &&& b.bits.getD j 0 else a.bits.getD j 0 := by
  unfold andAssign
  exact loop_getD (fun i w => w &&& b.bits.getD i 0) a.capacity a.bits h j

theorem orAssign_bits_getD (a b : Bitset) (h : a.capacity ≤ a.bits.length) (j : Nat) :
    (orAssign a b).bits.getD j 0 =
      if j < a.capacity then a.bits.getD j 0 ||| b.bits.getD j 0 else a.bits.getD j 0 := by
  unfold orAssign
  exact loop_getD (fun i w => w ||| b.bits.getD i 0) a.capacity a.bits h j

theorem xorAssign_bits_getD (a b : Bitset) (h : a.capacity ≤ a.bits.length) (j : Nat) :
    (xorAssign a b).bits.getD j 0 =
      if j < a.capacity then a.bits.getD j 0 ^^^ b.bits.getD j 0 else a.bits.getD j 0 := by
  unfold xorAssign
  exact loop_getD (fun i w => w ^^^ b.bits.getD i 0) a.capacity a.bits h j

theorem andAssign_length (a b : Bitset) : (andAssign a b).bits.length = a.bits.length := by
  unfold andAssign
  exact loop_length (fun i w => w &&& b.bits.getD i 0) a.capacity a.bits

theorem orAssign_length (a b : Bitset) : (orAssign a b).bits.length = a.bits.length := by
  unfold orAssign
  exact loop_length (fun i w => w ||| b.bits.getD i 0) a.capacity a.bits

theorem xorAssign_length (a b : Bitset) : (xorAssign a b).bits.length = a.bits.length := by
  unfold xorAssign
  exact loop_length (fun i w => w ^^^ b.bits.getD i 0) a.capacity a.bits

theorem andAssign_valid (a b : Bitset) (ha : Valid a) : Valid (andAssign a b) := by
  refine ⟨ha.1, ha.2.1, by rw [andAssign_length]; exact ha.2.2.1, ?_⟩
  apply forall_lt_of_getD
  intro j hj
  rw [andAssign_length, ha.2.2.1] at hj
  rw [andAssign_bits_getD a b (by rw [ha.2.2.1]), if_pos hj]
  exact lt_of_le_of_lt Nat.and_le_left (ha.word_lt j)

theorem orAssign_valid (a b : Bitset) (ha : Valid a) (hb : Valid b) : Valid (orAssign a b) := by
  refine ⟨ha.1, ha.2.1, by rw [orAssign_length]; exact ha.2.2.1, ?_⟩
  apply forall_lt_of_getD
  intro j hj
  rw [orAssign_length, ha.2.2.1] at hj
  rw [orAssign_bits_getD a b (by rw [ha.2.2.1]), if_pos hj]
  exact Nat.or_lt_two_pow (ha.word_lt j) (hb.word_lt j)

theorem xorAssign_valid (a b : Bitset) (ha : Valid a) (hb : Valid b) : Valid (xorAssign a b) := by
  refine ⟨ha.1, ha.2.1, by rw [xorAssign_length]; exact ha.2.2.1, ?_⟩
  apply forall_lt_of_getD
  intro j hj
  rw [xorAssign_length, ha.2.2.1] at hj
  rw [xorAssign_bits_getD a b (by rw [ha.2.2.1]), if_pos hj]
  exact Nat.xor_lt_two_pow (ha.word_lt j) (hb.word_lt j)

theorem get_andAssign (a b : Bitset) (ha : Valid a) (i : Nat) (hi : i < a.N) :
    get (andAssign a b) i = (get a i && get b i) := by
  rw [get_eq_testBit, get_eq_testBit, get_eq_testBit,
    andAssign_bits_getD a b (by rw [ha.2.2.1]), if_pos (ha.index_lt hi), Nat.testBit_and]

theorem get_orAssign (a b : Bitset) (ha : Valid a) (i : Nat) (hi : i < a.N) :
    get (orAssign a b) i = (get a i || get b i) := by
  rw [get_eq_testBit, get_eq_testBit, get_eq_testBit,
    orAssign_bits_getD a b (by rw [ha.2.2.1]), if_pos (ha.index_lt hi), Nat.testBit_or]

theorem get_xorAssign (a b : Bitset) (ha : Valid a) (i : Nat) (hi : i < a.N) :
    get (xorAssign a b) i = (get a i ^^ get b i) := by
  rw [get_eq_testBit, get_eq_testBit, get_eq_testBit,
    xorAssign_bits_getD a b (by rw [ha.2.2.1]), if_pos (ha.index_lt hi), Nat.testBit_xor]

theorem and_eq (a b : Bitset) (ha : Valid a) : and a b = andAssign a b := by
  unfold and
  rw [copy_eq a ha.2.2.1]

theorem or_eq (a b : Bitset) (ha : Valid a) : or a b = orAssign a b := by
  unfold or
  rw [copy_eq a ha.2.2.1]

theorem xor_eq (a b : Bitset) (ha : Valid a) : xor a b = xorAssign a b := by
  unfold xor
  rw [copy_eq a ha.2.2.1]

theorem not_eq (a : Bitset) (ha : Valid a) : not a = flip a := by
  unfold not
  rw [copy_eq a ha.2.2.1]

/-- Two vectors of the same size with the same logical bits have the same
`count()`. -/
theorem count_congr (a b : Bitset) (ha : Valid a) (hb : Valid b) (hN : a.N = b.N)
    (h : ∀ i, i < a.N → get a i = get b i) : count a = count b := by
  rw [count_eq_countP a ha, count_eq_countP b hb, ← hN]
  apply List.countP_congr
  intro i hi
  rw [h i (List.mem_range.mp hi)]

end Bitset
/-! ## Single-bit mutation -/

theorem testBit_one_shiftLeft (r p : Nat) : (1 <<< r).testBit p = decide (r = p) := by
  rw [Nat.one_shiftLeft, Nat.testBit_two_pow]

theorem one_shiftLeft_lt (r : Nat) (h : r < 64) : 1 <<< r < 2 ^ 64 := by
  rw [Nat.one_shiftLeft]
  exact Nat.pow_lt_pow_right (by omega) h

namespace Bitset

theorem set_at_bits_getD (b : Bitset) (i j : Nat) :
    (set_at b i).bits.getD j 0 =
      if i / 64 = j ∧ i / 64 < b.bits.length then b.bits.getD (i / 64) 0 ||| (1 <<< (i % 64))
      else b.bits.getD j 0 := by
  unfold set_at
  simp only [shiftRight_two_base, and_base_sub_one]
  rw [getD_set]

theorem reset_at_bits_getD (b : Bitset) (i j : Nat) :
    (reset_at b i).bits.getD j 0 =
      if i / 64 = j ∧ i / 64 < b.bits.length then
        b.bits.getD (i / 64) 0 &&& not64 (1 <<< (i % 64))
      else b.bits.getD j 0 := by
  unfold reset_at
  simp only [shiftRight_two_base, and_base_sub_one]
  rw [getD_set]

theorem flip_at_bits_getD (b : Bitset) (i j : Nat) :
    (flip_at b i).bits.getD j 0 =
      if i / 64 = j ∧ i / 64 < b.bits.length then b.bits.getD (i / 64) 0 ^^^ (1 <<< (i % 64))
      else b.bits.getD j 0 := by
  unfold flip_at
  simp only [shiftRight_two_base, and_base_sub_one]
  rw [getD_set]

/-- Stored bit `p` of word `j` after `set(i)`: the bit at position `i % 64` of
word `i / 64` is set, every other stored bit is as before. -/
theorem testBit_set_at (b : Bitset) (h : Valid b) (i : Nat) (hi : i < b.N) (j p : Nat) :
    ((set_at b i).bits.getD j 0).testBit p =
      ((b.bits.getD j 0).testBit p || decide (j = i / 64 ∧ p = i % 64)) := by
  have hl : i / 64 < b.bits.length := by rw [h.2.2.1]; exact h.index_lt hi
  rw [set_at_bits_getD]
  by_cases hj : i / 64 = j
  · subst hj
    rw [if_pos ⟨rfl, hl⟩, Nat.testBit_or, testBit_one_shiftLeft]
    by_cases hp : i % 64 = p
    · simp [hp]
    · have : ¬ p = i % 64 := fun e => hp e.symm
      simp [hp, this]
  · have h1 : ¬ (i / 64 = j ∧ i / 64 < b.bits.length) := fun e => hj e.1
    have h2 : ¬ (j = i / 64 ∧ p = i % 64) := fun e => hj e.1.symm
    simp [h1, h2]

/-- Stored bit `p` of word `j` after `reset(i)`. -/
theorem testBit_reset_at (b : Bitset) (h : Valid b) (i : Nat) (hi : i < b.N) (j p : Nat) :
    ((reset_at b i).bits.getD j 0).testBit p =
      ((b.bits.getD j 0).testBit p && !decide (j = i / 64 ∧ p = i % 64)) := by
  have hl : i / 64 < b.bits.length := by rw [h.2.2.1]; exact h.index_lt hi
  have h64 : i % 64 < 64 := Nat.mod_lt _ (by omega)
  rw [reset_at_bits_getD]
  by_cases hj : i / 64 = j
  · subst hj
    rw [if_pos ⟨rfl, hl⟩, Nat.testBit_and, testBit_not64, testBit_one_shiftLeft]
    by_cases hp64 : p < 64
    · by_cases hp : i % 64 = p
      · simp [hp, hp64]
      · have : ¬ p = i % 64 := fun e => hp e.symm
        simp [hp, this, hp64]
    · have hp : ¬ i % 64 = p := by omega
      rw [testBit_eq_false_of_lt _ _ (h.word_lt _) (by omega)]
      simp
  · have h1 : ¬ (i / 64 = j ∧ i / 64 < b.bits.length) := fun e => hj e.1
    have h2 : ¬ (j = i / 64 ∧ p = i % 64) := fun e => hj e.1.symm
    simp [h1, h2]

/-- Stored bit `p` of word `j` after `flip(i)`. -/
theorem testBit_flip_at (b : Bitset) (h : Valid b) (i : Nat) (hi : i < b.N) (j p : Nat) :
    ((flip_at b i).bits.getD j 0).testBit p =
      ((b.bits.getD j 0).testBit p ^^ decide (j = i / 64 ∧ p = i % 64)) := by
  have hl : i / 64 < b.bits.length := by rw [h.2.2.1]; exact h.index_lt hi
  rw [flip_at_bits_getD]
  by_cases hj : i / 64 = j
  · subst hj
    rw [if_pos ⟨rfl, hl⟩, Nat.testBit_xor, testBit_one_shiftLeft]
    by_cases hp : i % 64 = p
    · simp [hp]
    · have : ¬ p = i % 64 := fun e => hp e.symm
      simp [hp, this]
  · have h1 : ¬ (i / 64 = j ∧ i / 64 < b.bits.length) := fun e => hj e.1
    have h2 : ¬ (j = i / 64 ∧ p = i % 64) := fun e => hj e.1.symm
    simp [h1, h2]

theorem same_bit_iff (i j : Nat) : (j / 64 = i / 64 ∧ j % 64 = i % 64) ↔ j = i := by
  omega

theorem get_set_at (b : Bitset) (h : Valid b) (i : Nat) (hi : i < b.N) (j : Nat) :
    get (set_at b i) j = (get b j || decide (j = i)) := by
  rw [get_eq_testBit, get_eq_testBit, testBit_set_at b h i hi]
  congr 1
  rw [decide_eq_decide]
  exact same_bit_iff i j

theorem get_reset_at (b : Bitset) (h : Valid b) (i : Nat) (hi : i < b.N) (j : Nat) :
    get (reset_at b i) j = (get b j && !decide (j = i)) := by
  rw [get_eq_testBit, get_eq_testBit, testBit_reset_at b h i hi]
  congr 2
  rw [decide_eq_decide]
  exact same_bit_iff i j

theorem get_flip_at (b : Bitset) (h : Valid b) (i : Nat) (hi : i < b.N) (j : Nat) :
    get (flip_at b i) j = (get b j ^^ decide (j = i)) := by
  rw [get_eq_testBit, get_eq_testBit, testBit_flip_at b h i hi]
  congr 1
  rw [decide_eq_decide]
  exact same_bit_iff i j

theorem set_at_valid (b : Bitset) (h : Valid b) (i : Nat) : Valid (set_at b i) := by
  refine ⟨h.1, h.2.1, ?_, ?_⟩
  · show (b.bits.set _ _).length = b.capacity
    rw [List.length_set]; exact h.2.2.1
  · apply forall_lt_of_getD
    intro j _
    rw [set_at_bits_getD]
    split
    · exact Nat.or_lt_two_pow (h.word_lt _) (one_shiftLeft_lt _ (Nat.mod_lt _ (by omega)))
    · exact h.word_lt _

theorem reset_at_valid (b : Bitset) (h : Valid b) (i : Nat) : Valid (reset_at b i) := by
  refine ⟨h.1, h.2.1, ?_, ?_⟩
  · show (b.bits.set _ _).length = b.capacity
    rw [List.length_set]; exact h.2.2.1
  · apply forall_lt_of_getD
    intro j _
    rw [reset_at_bits_getD]
    split
    · exact lt_of_le_of_lt Nat.and_le_left (h.word_lt _)
    · exact h.word_lt _

theorem flip_at_valid (b : Bitset) (h : Valid b) (i : Nat) : Valid (flip_at b i) := by
  refine ⟨h.1, h.2.1, ?_, ?_⟩
  · show (b.bits.set _ _).length = b.capacity
    rw [List.length_set]; exact h.2.2.1
  · apply forall_lt_of_getD
    intro j _
    rw [flip_at_bits_getD]
    split
    · exact Nat.xor_lt_two_pow (h.word_lt _) (one_shiftLeft_lt _ (Nat.mod_lt _ (by omega)))
    · exact h.word_lt _

end Bitset

/-- Setting a predicate at one more point of `range n` raises the count by one
when the point was not counted, and leaves it otherwise. -/
theorem countP_set_point (p : Nat → Bool) (n i : Nat) (hi : i < n) :
    (List.range n).countP (fun j => p j || decide (j = i)) =
      (List.range n).countP p + (if p i = true then 0 else 1) := by
  induction n with
  | zero => omega
  | succ n ih =>
    rw [List.range_succ, List.countP_append, List.countP_append]
    by_cases hin : i = n
    · subst hin
      have h1 : (List.range i).countP (fun j => p j || decide (j = i)) = (List.range i).countP p := by
        apply List.countP_congr
        intro j hj
        rw [List.mem_range] at hj
        have : ¬ j = i := by omega
        simp [this]
      rw [h1]
      cases hp : p i <;> simp [hp, List.countP_cons]
    · rw [ih (by omega)]
      have : ¬ n = i := fun e => hin e.symm
      cases hp : p n
      · simp [hp, this, List.countP_cons]
      · simp [hp, this, List.countP_cons]
        omega

/-! ## The tail of the last word -/
namespace Bitset

theorem ctor_tailClean (n : Nat) : TailClean (ctor n) := by
  intro _ p _
  rw [ctor_bits_getD, Nat.zero_testBit]

theorem reset_N (b : Bitset) : (reset b).N = b.N := rfl

theorem reset_length (b : Bitset) : (reset b).bits.length = b.bits.length := by
  unfold reset
  exact loop_length (fun _ _ => 0) b.capacity b.bits

theorem reset_valid (b : Bitset) (h : Valid b) : Valid (reset b) := by
  refine ⟨h.1, h.2.1, by rw [reset_length]; exact h.2.2.1, ?_⟩
  apply forall_lt_of_getD
  intro j hj
  rw [reset_length, h.2.2.1] at hj
  rw [reset_bits_getD b (by rw [h.2.2.1]), if_pos hj]
  omega

theorem reset_tailClean (b : Bitset) (h : Valid b) : TailClean (reset b) := by
  intro hN p _
  have hcap := h.2.1
  have hN2 : b.N % 64 ≠ 0 := hN
  show ((reset b).bits.getD (b.capacity - 1) 0).testBit p = false
  rw [reset_bits_getD b (by rw [h.2.2.1]), if_pos (by omega), Nat.zero_testBit]

/-- A position of the tail of the last word is not the position of a logical
bit. -/
theorem tail_ne_index (b : Bitset) (h : Valid b) (i : Nat) (hi : i < b.N) (p : Nat)
    (hp : b.N % 64 ≤ p) (hN : b.N % 64 ≠ 0) : ¬ (b.capacity - 1 = i / 64 ∧ p = i % 64) := by
  have hcap := h.2.1
  omega

theorem set_at_tailClean (b : Bitset) (h : Valid b) (ht : TailClean b) (i : Nat)
    (hi : i < b.N) : TailClean (set_at b i) := by
  intro hN p hp
  show ((set_at b i).bits.getD (b.capacity - 1) 0).testBit p = false
  rw [testBit_set_at b h i hi, ht hN p hp]
  simp [tail_ne_index b h i hi p hp hN]

theorem reset_at_tailClean (b : Bitset) (h : Valid b) (ht : TailClean b) (i : Nat)
    (hi : i < b.N) : TailClean (reset_at b i) := by
  intro hN p hp
  show ((reset_at b i).bits.getD (b.capacity - 1) 0).testBit p = false
  rw [testBit_reset_at b h i hi, ht hN p hp]
  simp

theorem flip_at_tailClean (b : Bitset) (h : Valid b) (ht : TailClean b) (i : Nat)
    (hi : i < b.N) : TailClean (flip_at b i) := by
  intro hN p hp
  show ((flip_at b i).bits.getD (b.capacity - 1) 0).testBit p = false
  rw [testBit_flip_at b h i hi, ht hN p hp]
  simp [tail_ne_index b h i hi p hp hN]

theorem andAssign_tailClean (a b : Bitset) (ha : Valid a) (hta : TailClean a) :
    TailClean (andAssign a b) := by
  intro hN p hp
  have hcap := ha.2.1
  have hN2 : a.N % 64 ≠ 0 := hN
  show ((andAssign a b).bits.getD (a.capacity - 1) 0).testBit p = false
  rw [andAssign_bits_getD a b (by rw [ha.2.2.1]), if_pos (by omega), Nat.testBit_and,
    hta hN p hp, Bool.false_and]

theorem orAssign_tailClean (a b : Bitset) (ha : Valid a) (hb : Valid b) (hN : a.N = b.N)
    (hta : TailClean a) (htb : TailClean b) : TailClean (orAssign a b) := by
  intro hN0 p hp
  have hcap := ha.2.1
  have hcapb := hb.2.1
  have hN2 : a.N % 64 ≠ 0 := hN0
  have hc : a.capacity = b.capacity := by rw [hcap, hcapb, hN]
  show ((orAssign a b).bits.getD (a.capacity - 1) 0).testBit p = false
  rw [orAssign_bits_getD a b (by rw [ha.2.2.1]), if_pos (by omega), Nat.testBit_or,
    hta hN0 p hp, Bool.false_or, hc]
  exact htb (by rw [← hN]; exact hN2) p (by rw [← hN]; exact hp)

theorem xorAssign_tailClean (a b : Bitset) (ha : Valid a) (hb : Valid b) (hN : a.N = b.N)
    (hta : TailClean a) (htb : TailClean b) : TailClean (xorAssign a b) := by
  intro hN0 p hp
  have hcap := ha.2.1
  have hcapb := hb.2.1
  have hN2 : a.N % 64 ≠ 0 := hN0
  have hc : a.capacity = b.capacity := by rw [hcap, hcapb, hN]
  show ((xorAssign a b).bits.getD (a.capacity - 1) 0).testBit p = false
  rw [xorAssign_bits_getD a b (by rw [ha.2.2.1]), if_pos (by omega), Nat.testBit_xor,
    hta hN0 p hp, hc, htb (by rw [← hN]; exact hN2) p (by rw [← hN]; exact hp)]
  rfl

/-- The counters of the loop of `operator>>=`, whatever the conversion of the
start value to `int` gives: `n - 1, ..., 0` for some `n` that is at most the
number of words to produce. -/
theorem downFrom_toInt (x : Nat) :
    ∃ n, n ≤ x + 1 ∧ downFrom (toInt x) = (List.range n).reverse := by
  unfold toInt downFrom
  by_cases h : x % 2 ^ 32 < 2 ^ 31
  · refine ⟨x % 2 ^ 32 + 1, ?_, ?_⟩
    · have := Nat.mod_le x (2 ^ 32)
      omega
    · rw [if_pos h]
      have : ¬ (((x % 2 ^ 32 : Nat) : Int) < 0) := by omega
      rw [if_neg this, Int.toNat_natCast]
  · refine ⟨0, by omega, ?_⟩
    rw [if_neg h]
    have : (((x % 2 ^ 32 : Nat) : Int) - 2 ^ 32 < 0) := by
      have := Nat.mod_lt x (show 0 < 2 ^ 32 by omega)
      omega
    rw [if_pos this]
    rfl

/-- The words of the result of `operator>>=` for a shift below `N`, whatever the
conversion of the loop counter gives: the closed form for the number `n` of
iterations actually run. -/
theorem shrAssign_getD_any (b : Bitset) (h : Valid b) (k : Nat) (hk : k < b.N) :
    ∃ n, n ≤ b.capacity - k / 64 ∧ (shrAssign b k).bits.length = b.capacity ∧
      ∀ j, (shrAssign b k).bits.getD j 0 = shrWord b.bits (k / 64) (k % 64) n j := by
  have hcap := h.2.1
  have hN := h.1
  have hc : (ctor b.N).capacity = b.capacity := by rw [ctor_capacity b.N h.1, hcap]
  have hl : (ctor b.N).bits.length = b.capacity := by rw [ctor_length, hc]
  have e1 : wrap64 (b.capacity + 2 ^ 64 - k / 64 - 1) = b.capacity - k / 64 - 1 := by
    unfold wrap64
    omega
  obtain ⟨n, hn, hd⟩ := downFrom_toInt (b.capacity - k / 64 - 1)
  have hbits : (shrAssign b k).bits =
      (List.range n).reverse.foldl (shrStep b.bits (k / 64) (k % 64)) (ctor b.N).bits := by
    unfold shrAssign
    simp only [ge_iff_le, not_le.mpr hk, if_false, shiftRight_two_base, and_base_sub_one]
    rw [e1, hd]
  have := shrLoop_inv b.bits (k / 64) (k % 64) n n (ctor b.N).bits (le_refl _)
    (by rw [hl]; omega) (by
      intro j
      rw [ctor_bits_getD]
      by_cases h1 : n ≤ j
      · simp only [h1, if_true, shrWord]
      · by_cases h2 : j + 1 = n
        · have : n ≤ j + 1 := by omega
          simp only [h1, h2, if_false, if_true, le_refl, or_true]
        · simp only [h1, h2, if_false])
  refine ⟨n, by omega, ?_, ?_⟩
  · rw [hbits, this.1, hl]
  · rw [hbits]; exact this.2

theorem shrAssign_eq_ctor (b : Bitset) (k : Nat) (hk : b.N ≤ k) : shrAssign b k = ctor b.N := by
  unfold shrAssign
  simp only [ge_iff_le, hk, if_true]

/-- The result of `operator>>=` is a well-formed vector of `N` bits for every
shift amount. -/
theorem shrAssign_valid_any (b : Bitset) (h : Valid b) (k : Nat) : Valid (shrAssign b k) := by
  by_cases hk : k < b.N
  · obtain ⟨n, _, h1, h2⟩ := shrAssign_getD_any b h k hk
    have hc : (ctor b.N).capacity = b.capacity := by rw [ctor_capacity b.N h.1, h.2.1]
    refine ⟨by rw [shrAssign_N]; exact h.1, ?_, ?_, ?_⟩
    · rw [shrAssign_capacity, shrAssign_N, hc]; exact h.2.1
    · rw [shrAssign_capacity, hc]; exact h1
    · apply forall_lt_of_getD
      intro j _
      rw [h2 j]
      exact shrWord_lt _ h.word_lt _ _ _ _
  · rw [shrAssign_eq_ctor b k (by omega)]
    exact ctor_valid b.N h.1

/-- The right shift keeps the tail clean, for every shift amount. -/
theorem shrAssign_tailClean (b : Bitset) (h : Valid b) (ht : TailClean b) (k : Nat) :
    TailClean (shrAssign b k) := by
  by_cases hk : k < b.N
  · intro hN p hp
    rw [shrAssign_N] at hN hp
    have hcap := h.2.1
    have hc : (shrAssign b k).capacity = b.capacity := by
      rw [shrAssign_capacity, ctor_capacity b.N h.1, hcap]
    obtain ⟨n, hn, _, h2⟩ := shrAssign_getD_any b h k hk
    rw [hc, h2]
    unfold shrWord
    by_cases hnj : n ≤ b.capacity - 1
    · rw [if_pos hnj, Nat.zero_testBit]
    · rw [if_neg hnj]
      have hk0 : k / 64 = 0 := by omega
      have hn1 : n ≤ b.capacity - 1 + 1 := by omega
      rw [Nat.testBit_or, hk0]
      simp only [hn1, or_true, if_true, Nat.zero_testBit, Bool.false_or, Nat.add_zero]
      split
      · exact ht hN p hp
      · rw [Nat.testBit_shiftRight]
        exact ht hN _ (by omega)
  · rw [shrAssign_eq_ctor b k (by omega)]
    exact ctor_tailClean b.N

end Bitset
/-! ## Checked execution: each step -/
namespace Bitset

theorem readAt_eq (a : List Nat) (i : Nat) (h : i < a.length) :
    readAt a i = some (a.getD i 0) := by
  unfold readAt
  rw [if_pos h]

theorem writeAt_eq (a : List Nat) (i x : Nat) (h : i < a.length) :
    writeAt a i x = some (a.set i x) := by
  unfold writeAt
  rw [if_pos h]

theorem shl64_eq (x s : Nat) (h : s < 64) : shl64 x s = some (wrap64 (x <<< s)) := by
  unfold shl64
  rw [if_pos h]

theorem shr64_eq (x s : Nat) (h : s < 64) : shr64 x s = some (x >>> s) := by
  unfold shr64
  rw [if_pos h]

theorem wrap64_one_shiftLeft (r : Nat) (h : r < 64) : wrap64 (1 <<< r) = 1 <<< r := by
  unfold wrap64
  exact Nat.mod_eq_of_lt (one_shiftLeft_lt r h)

/-- A checked loop whose every iteration succeeds and agrees with the unchecked
body computes the unchecked fold. -/
theorem foldlM_eq_foldl (stepC : List Nat → Nat → Option (List Nat))
    (step : List Nat → Nat → List Nat) (cap : Nat) (Q : Nat → Prop)
    (hstep : ∀ rb i, rb.length = cap → Q i →
      stepC rb i = some (step rb i) ∧ (step rb i).length = cap)
    (l : List Nat) :
    ∀ rb, rb.length = cap → (∀ i ∈ l, Q i) → l.foldlM stepC rb = some (l.foldl step rb) := by
  induction l with
  | nil => intro rb _ _; rfl
  | cons a l ih =>
    intro rb hrb hQ
    obtain ⟨h1, h2⟩ := hstep rb a hrb (hQ a (List.mem_cons_self a l))
    rw [List.foldlM_cons, h1]
    exact ih (step rb a) h2 (fun i hi => hQ i (List.mem_cons_of_mem a hi))

theorem shlStepChecked_eq (N cap : Nat) (src : List Nat) (blocks rem : Nat) (rb : List Nat)
    (i : Nat) (hsrc : src.length = cap) (hrb : rb.length = cap) (hbi : blocks ≤ i)
    (hic : i < cap) (hrem : rem < 64) :
    shlStepChecked N cap src blocks rem rb i = some (shlStep N cap src blocks rem rb i) := by
  have h1 : i - blocks < src.length := by omega
  have h2 : i < rb.length := by omega
  have hN : N &&& (BASE - 1) < 64 := by
    rw [and_base_sub_one]; exact Nat.mod_lt _ (by omega)
  unfold shlStepChecked shlStep
  simp only [Option.bind_eq_bind, readAt_eq src _ h1, Option.some_bind]
  by_cases hlast : i + 1 = cap
  · simp only [hlast, if_true]
    by_cases h0 : rem = 0
    · simp only [h0, if_true, writeAt_eq rb i _ h2, Option.some_bind]
      by_cases hm : N &&& (BASE - 1) > 0
      · have h3 : i < (rb.set i (src.getD (i - blocks) 0)).length := by
          rw [List.length_set]; exact h2
        simp only [hm, if_true, readAt_eq _ _ h3, shl64_eq _ _ hN, writeAt_eq _ _ _ h3,
          Option.some_bind, wrap64_one_shiftLeft _ hN, tailMask]
      · simp only [hm, if_false, Option.pure_def]
    · have h3 : i < (rb.set i (rb.getD i 0 ||| wrap64 (src.getD (i - blocks) 0 <<< rem))).length := by
        rw [List.length_set]; exact h2
      simp only [h0, if_false, readAt_eq rb i h2, shl64_eq _ _ hrem, writeAt_eq rb i _ h2,
        Option.some_bind]
      by_cases hm : N &&& (BASE - 1) > 0
      · simp only [hm, if_true, readAt_eq _ _ h3, shl64_eq _ _ hN, writeAt_eq _ _ _ h3,
          Option.some_bind, wrap64_one_shiftLeft _ hN, tailMask]
      · simp only [hm, if_false, Option.pure_def]
  · simp only [hlast, if_false]
    by_cases h0 : rem = 0
    · simp only [h0, if_true, writeAt_eq rb i _ h2]
    · have h3 : i + 1 <
          (rb.set i (rb.getD i 0 ||| wrap64 (src.getD (i - blocks) 0 <<< rem))).length := by
        rw [List.length_set]; omega
      have h4 : BASE - rem < 64 := by
        have : BASE = 64 := rfl
        omega
      simp only [h0, if_false, readAt_eq rb i h2, shl64_eq _ _ hrem, writeAt_eq rb i _ h2,
        Option.some_bind, readAt_eq _ _ h3, shr64_eq _ _ h4, writeAt_eq _ _ _ h3]

theorem shrStepChecked_eq (cap : Nat) (src : List Nat) (blocks rem : Nat) (rb : List Nat)
    (i : Nat) (hsrc : src.length = cap) (hrb : rb.length = cap)
    (hic : i + blocks < cap) (hrem : rem < 64) :
    shrStepChecked src blocks rem rb i = some (shrStep src blocks rem rb i) := by
  have h1 : i + blocks < src.length := by omega
  have h2 : i < rb.length := by omega
  unfold shrStepChecked shrStep
  simp only [Option.bind_eq_bind, readAt_eq src _ h1, Option.some_bind]
  by_cases h0 : rem = 0
  · simp only [h0, if_true, writeAt_eq rb i _ h2]
  · by_cases hi0 : i = 0
    · simp only [h0, hi0, if_false, if_true]
      rw [hi0] at h2
      simp only [readAt_eq rb 0 h2, shr64_eq _ _ hrem, writeAt_eq rb 0 _ h2, Option.some_bind]
    · have h3 : i - 1 < (rb.set i (rb.getD i 0 ||| src.getD (i + blocks) 0 >>> rem)).length := by
        rw [List.length_set]; omega
      have h4 : BASE - rem < 64 := by
        have : BASE = 64 := rfl
        omega
      simp only [h0, hi0, if_false, readAt_eq rb i h2, shr64_eq _ _ hrem, writeAt_eq rb i _ h2,
        Option.some_bind, readAt_eq _ _ h3, shl64_eq _ _ h4, writeAt_eq _ _ _ h3]

end Bitset
/-! ## Checked execution: the methods -/
namespace Bitset

/-- Every buffer access and every shift of `operator<<=` is well defined, and
the checked run gives the result of the method. -/
theorem shlAssignChecked_eq (b : Bitset) (h : Valid b) (k : Nat) :
    shlAssignChecked b k = some (shlAssign b k) := by
  have hcap := h.2.1
  have hc : (ctor b.N).capacity = b.capacity := by rw [ctor_capacity b.N h.1, hcap]
  have hl : (ctor b.N).bits.length = b.capacity := by rw [ctor_length, hc]
  unfold shlAssignChecked shlAssign
  by_cases hk : k ≥ b.N
  · simp only [hk, if_true]
  · simp only [hk, if_false, shiftRight_two_base, and_base_sub_one]
    have := foldlM_eq_foldl (shlStepChecked b.N b.capacity b.bits (k / 64) (k % 64))
      (shlStep b.N b.capacity b.bits (k / 64) (k % 64)) b.capacity
      (fun i => k / 64 ≤ i ∧ i < b.capacity)
      (fun rb i hrb hi =>
        ⟨shlStepChecked_eq b.N b.capacity b.bits (k / 64) (k % 64) rb i h.2.2.1 hrb hi.1 hi.2
          (Nat.mod_lt _ (by omega)), by rw [shlStep_length, hrb]⟩)
      (List.range' (k / 64) (b.capacity - k / 64)) (ctor b.N).bits hl
      (fun i hi => by
        rw [List.mem_range'_1] at hi
        omega)
    rw [this]
    rfl

/-- The conversion of the loop counter, every buffer access and every shift of
`operator>>=` is well defined when the buffer has fewer than `2 ^ 31` words,
and the checked run gives the result of the method. -/
theorem shrAssignChecked_eq (b : Bitset) (h : Valid b) (h31 : b.capacity < 2 ^ 31) (k : Nat) :
    shrAssignChecked b k = some (shrAssign b k) := by
  have hcap := h.2.1
  have hN := h.1
  have hc : (ctor b.N).capacity = b.capacity := by rw [ctor_capacity b.N h.1, hcap]
  have hl : (ctor b.N).bits.length = b.capacity := by rw [ctor_length, hc]
  unfold shrAssignChecked shrAssign
  by_cases hk : k ≥ b.N
  · simp only [hk, if_true]
  · simp only [hk, if_false, shiftRight_two_base, and_base_sub_one]
    have e1 : wrap64 (b.capacity + 2 ^ 64 - k / 64 - 1) = b.capacity - k / 64 - 1 := by
      unfold wrap64
      omega
    have e2 : toIntChecked (b.capacity - k / 64 - 1) = some ((b.capacity - k / 64 - 1 : Nat) : Int) := by
      unfold toIntChecked
      rw [if_pos (by omega)]
    rw [e1, e2, toInt_of_lt _ (by omega), Option.some_bind]
    have := foldlM_eq_foldl (shrStepChecked b.bits (k / 64) (k % 64))
      (shrStep b.bits (k / 64) (k % 64)) b.capacity
      (fun i => i + k / 64 < b.capacity)
      (fun rb i hrb hi =>
        ⟨shrStepChecked_eq b.capacity b.bits (k / 64) (k % 64) rb i h.2.2.1 hrb hi
          (Nat.mod_lt _ (by omega)), by rw [shrStep_length, hrb]⟩)
      (downFrom ((b.capacity - k / 64 - 1 : Nat) : Int)) (ctor b.N).bits hl
      (fun i hi => by
        rw [downFrom_natCast, List.mem_reverse, List.mem_range] at hi
        omega)
    rw [this]
    rfl

theorem scanChecked_eq (b : Bitset) (h : b.bits.length = b.capacity) (s n : Nat)
    (hn : s + n ≤ b.capacity) :
    scanChecked b (List.range' s n) = some (scan b (List.range' s n)) := by
  induction n generalizing s with
  | zero => rfl
  | succ n ih =>
    rw [List.range'_succ]
    unfold scanChecked scan
    rw [readAt_eq _ _ (by omega), Option.some_bind]
    split
    · exact ih (s + 1) (by omega)
    · rfl

/-- The buffer access and the shift of `_Find_next(index)` are well defined for
`index < N`, and the checked run gives the result of the method. -/
theorem Find_nextChecked_eq (b : Bitset) (h : Valid b) (index : Nat) (hi : index < b.N) :
    Find_nextChecked b index = some (Find_next b index) := by
  have hc := h.index_lt hi
  have hl : index >>> 6 < b.bits.length := by
    rw [shiftRight_six, h.2.2.1]; exact hc
  have hscan := scanChecked_eq b h.2.2.1 (index >>> 6 + 1) (b.capacity - (index >>> 6 + 1))
    (by rw [shiftRight_six]; omega)
  unfold Find_nextChecked Find_next
  by_cases h63 : (index &&& 63) ≠ 63
  · have hs : (index &&& 63) + 1 < 64 := by
      rw [and_63] at h63 ⊢
      omega
    simp only [h63, if_true, ne_eq, not_false_eq_true, readAt_eq _ _ hl, Option.some_bind,
      shl64_eq _ _ hs, wrap64_one_shiftLeft _ hs, hscan]
    split <;> rfl
  · simp only [h63, if_false, hscan]

/-- The checks are real ones: a read outside the buffer (`_Find_next(64)` on a
vector of 10 bits), a start value `2 ^ 31` of the loop counter of `operator>>=`
and a shift by 64 all make the checked run fail. -/
theorem checked_can_fail :
    Find_nextChecked (ctor 10) 64 = Option.none ∧ toIntChecked (2 ^ 31) = Option.none ∧
    shl64 1 64 = Option.none ∧ shr64 1 64 = Option.none ∧ readAt [0] 1 = Option.none ∧
    writeAt [0] 1 0 = Option.none := by
  decide

end Bitset
/-! ## Fresh vectors, involution, right shift under the precondition -/

theorem not64_not64 (w : Nat) : not64 (not64 w) = w := by
  unfold not64
  rw [← Nat.xor_assoc, Nat.xor_self, Nat.zero_xor]

namespace Bitset

theorem count_set (v : Bitset) (h : Valid v) : count (set v) = v.N := by
  rw [count_eq_countP _ (set_valid v h)]
  have hN : (set v).N = v.N := rfl
  rw [hN]
  have : List.countP (fun i => get (set v) i) (List.range v.N) = (List.range v.N).length := by
    rw [List.countP_eq_length]
    intro i hi
    exact get_set v h i (List.mem_range.mp hi)
  rw [this, List.length_range]

theorem count_eq_zero_of_get (v : Bitset) (h : Valid v) (hz : ∀ i, i < v.N → get v i = false) :
    count v = 0 := by
  rw [count_eq_countP v h, List.countP_eq_zero]
  intro i hi
  rw [hz i (List.mem_range.mp hi)]
  exact Bool.false_ne_true

theorem flip_flip (v : Bitset) (h : v.capacity ≤ v.bits.length) : flip (flip v) = v := by
  have hb : (flip (flip v)).bits = v.bits := by
    apply list_ext_getD
    · rw [flip_length, flip_length]
    · intro j _
      rw [flip_bits_getD (flip v) (by rw [flip_length]; exact h), flip_bits_getD v h]
      show (if j < v.capacity then not64 (if j < v.capacity then not64 (v.bits.getD j 0)
        else v.bits.getD j 0) else _) = _
      by_cases hj : j < v.capacity
      · simp only [hj, if_true, not64_not64]
      · simp only [hj, if_false]
  cases v
  simp only [flip] at hb ⊢
  simp only [hb]

/-- A freshly constructed vector, when the `size_t` sum of the constructor does
not wrap: `ceil(N / 64)` words, all zero. -/
theorem ctor_fresh (n : Nat) (hn : n + 63 < 2 ^ 64) :
    (ctor n).N = n ∧ (ctor n).capacity = (n + 63) / 64 ∧
    (ctor n).bits = List.replicate ((n + 63) / 64) 0 ∧
    (∀ i, get (ctor n) i = false) ∧ count (ctor n) = 0 ∧ none (ctor n) = true ∧
    any (ctor n) = false ∧ Find_first (ctor n) = n := by
  have hv := ctor_valid n hn
  have hc := ctor_capacity n hn
  have hcount : count (ctor n) = 0 := count_eq_zero_of_get _ hv (fun i _ => get_ctor n i)
  refine ⟨rfl, hc, by rw [ctor_bits, hc], get_ctor n, hcount, ?_, ?_, ?_⟩
  · unfold none
    rw [hcount]
    rfl
  · unfold any
    rw [hcount]
    rfl
  · exact (Find_first_of_tailClean _ hv (ctor_tailClean n)).1 (fun i _ => get_ctor n i)

/-- Under the clean-tail precondition, and when the loop counter fits an `int`,
the right shift is the logical shift with zero fill and keeps the tail clean. -/
theorem shrAssign_of_tailClean (v : Bitset) (h : Valid v) (ht : TailClean v) (k : Nat)
    (h31 : v.capacity ≤ 2 ^ 31) :
    (∀ i, i < v.N → get (shrAssign v k) i = (decide (i + k < v.N) && get v (i + k))) ∧
    TailClean (shrAssign v k) :=
  ⟨fun i _ => get_shrAssign v h ht k i (by omega), shrAssign_tailClean v h ht k⟩

theorem wide_tailClean : TailClean wide := by
  intro hN
  exact absurd hN (by decide)

theorem scenario10_tailClean : TailClean scenario10 := by
  intro _ p hp
  have hb : scenario10.bits.getD (scenario10.capacity - 1) 0 = 548 := by decide
  have hN : scenario10.N = 10 := rfl
  rw [hb]
  rw [hN] at hp
  apply Nat.testBit_lt_two_pow
  have h10 : 10 ≤ p := hp
  calc 548 < 2 ^ 10 := by decide
    _ ≤ 2 ^ p := Nat.pow_le_pow_right (by omega) h10

end Bitset
/-! ## Round trip of the two shifts -/
namespace Bitset

/-- Round trip of the two shifts when the loop counter of the right shift fits
an `int`: `(v << k) >> k` keeps the bits of `v` below `N - k` and clears the
others. -/
theorem shl_shr_round_trip (v : Bitset) (h : Valid v) (k i : Nat)
    (h31 : v.capacity ≤ 2 ^ 31) :
    get (shr (shl v k) k) i = (decide (i + k < v.N) && get v i) := by
  have hcap := h.2.1
  have hv := shlAssign_valid v h k
  have hc : (shlAssign v k).capacity = v.capacity := by
    rw [shlAssign_capacity, ctor_capacity v.N h.1, hcap]
  rw [shl_eq v h, shr_eq _ hv,
    get_shrAssign _ hv (shlAssign_tailClean v h k) k i (by rw [hc]; omega), shlAssign_N]
  by_cases hik : i + k < v.N
  · rw [get_shlAssign v h k (i + k) hik]
    have e : i + k - k = i := by omega
    rw [e]
    simp
  · simp [hik]

/-! ## The claims -/

/-- C1: for every vector `v` of `N` bits (the tail of its last word arbitrary)
and every shift `k`, `v << k` and `v <<= k` give the same vector, it has `N`
bits, bit `i < N` of it is set iff `i >= k` and bit `i - k` of `v` is set, a
shift `k >= N` gives the all-zero vector, and shifting the vector of 10 bits
with bits 2, 5, 9 set by 3 gives exactly the bits 5 and 8. -/
theorem C1_shift_left (v : Bitset) (h : Valid v) (k : Nat) :
    shl v k = shlAssign v k ∧ (shl v k).N = v.N ∧ Valid (shl v k) ∧
    (∀ i, i < v.N → get (shl v k) i = (decide (k ≤ i) && get v (i - k))) ∧
    (v.N ≤ k → ∀ i, i < v.N → get (shl v k) i = false) ∧
    (List.range 10).filter (fun i => get (shl scenario10 3) i) = [5, 8] := by
  have hg : ∀ i, i < v.N → get (shl v k) i = (decide (k ≤ i) && get v (i - k)) := by
    intro i hi
    rw [shl_eq v h, get_shlAssign v h k i hi]
  refine ⟨shl_eq v h k, ?_, ?_, hg, ?_, by decide⟩
  · rw [shl_eq v h, shlAssign_N]
  · rw [shl_eq v h]; exact shlAssign_valid v h k
  · intro hk i hi
    rw [hg i hi]
    have : ¬ k ≤ i := by omega
    simp [this]

theorem C1_shift_left_witness :
    Valid scenario10 ∧
      ∀ i, i < scenario10.N →
        get (shl scenario10 3) i = (decide (3 ≤ i) && get scenario10 (i - 3)) :=
  ⟨by decide, (C1_shift_left scenario10 (by decide) 3).2.2.2.1⟩

/-- C2, evaluated at the failing input `Bitset b(10); b.flip();` shifted right
by 1: bit 9 of the result is set, although position `9 + 1` is not below
`N = 10`; the bit comes from the tail of the last word, which `flip()` filled
with ones. -/
theorem C2_shift_right_after_flip :
    Valid flipped10 ∧ flipped10.N = 10 ∧
    get (shr flipped10 1) 9 = true ∧ get (shrAssign flipped10 1) 9 = true ∧
    (decide (9 + 1 < 10) && get flipped10 (9 + 1)) = false := by
  decide

/-- C3, evaluated at the failing input `Bitset b(10); b.flip(); b >>= 1;
b.flip();`: no bit below `N = 10` is set and `count()` is 0, yet `_Find_first()`
returns 63 and not 10. -/
theorem C3_find_first_tail :
    Valid tail63 ∧ tail63.N = 10 ∧ count tail63 = 0 ∧ (∀ i, i < 10 → get tail63 i = false) ∧
    Find_first tail63 = 63 := by
  decide

/-- C4, evaluated at the failing input `Bitset b(10); b.flip(); b >>= 1;
b.flip();` and `index = 0`: no bit `j` with `0 < j < 10` is set, yet
`_Find_next(0)` returns 63 and not 10. -/
theorem C4_find_next_tail :
    Valid tail63 ∧ tail63.N = 10 ∧ (∀ j, j < 10 → 0 < j → get tail63 j = false) ∧
    Find_next tail63 0 = 63 := by
  decide

/-- C5: for every vector of `N` bits (the tail of its last word arbitrary) the
loop `i = _Find_first(); while (i < N) i = _Find_next(i)` ends within `N + 1`
evaluations of its condition and visits exactly the list of the set positions
below `N`, which is strictly ascending and holds each set position once. -/
theorem C5_enumeration (v : Bitset) (h : Valid v) (fuel : Nat) (hf : v.N < fuel) :
    enumerate v fuel = some ((List.range v.N).filter (fun i => get v i)) ∧
    List.Pairwise (fun a b => a < b) ((List.range v.N).filter (fun i => get v i)) ∧
    (∀ i, i ∈ (List.range v.N).filter (fun i => get v i) ↔ (i < v.N ∧ get v i = true)) ∧
    List.Nodup ((List.range v.N).filter (fun i => get v i)) := by
  have hp : List.Pairwise (fun a b => a < b) ((List.range v.N).filter (fun i => get v i)) :=
    List.Pairwise.filter _ (List.pairwise_lt_range v.N)
  refine ⟨enumerate_eq v h fuel hf, hp, ?_, ?_⟩
  · intro i
    rw [List.mem_filter, List.mem_range]
  · exact hp.imp (fun hab => Nat.ne_of_lt hab)

theorem C5_enumeration_witness :
    (Valid scenario10 ∧ scenario10.N < 11 ∧
      enumerate scenario10 11 =
        some ((List.range scenario10.N).filter (fun i => get scenario10 i)) ∧
      (List.range scenario10.N).filter (fun i => get scenario10 i) = [2, 5, 9]) ∧
    (Valid flipped10 ∧ flipped10.N < 11 ∧
      enumerate flipped10 11 =
        some ((List.range flipped10.N).filter (fun i => get flipped10 i)) ∧
      (List.range flipped10.N).filter (fun i => get flipped10 i) =
        [0, 1, 2, 3, 4, 5, 6, 7, 8, 9]) :=
  ⟨⟨by decide, by decide, (C5_enumeration scenario10 (by decide) 11 (by decide)).1, by decide⟩,
    ⟨by decide, by decide, (C5_enumeration flipped10 (by decide) 11 (by decide)).1, by decide⟩⟩

/-- C6: for every vector of `N` bits (the tail of its last word arbitrary)
`count()` is the number of positions `i < N` with `operator[](i)` true, `any()`
holds iff some bit below `N` is set and `none()` iff no bit below `N` is set. -/
theorem C6_count (v : Bitset) (h : Valid v) :
    count v = (List.range v.N).countP (fun i => get v i) ∧
    (any v = true ↔ ∃ i, i < v.N ∧ get v i = true) ∧
    (none v = true ↔ ∀ i, i < v.N → get v i = false) := by
  have hc := count_eq_countP v h
  refine ⟨hc, ?_, ?_⟩
  · unfold any
    rw [decide_eq_true_eq, hc, gt_iff_lt, List.countP_pos_iff]
    constructor
    · rintro ⟨i, hi, hg⟩
      exact ⟨i, List.mem_range.mp hi, hg⟩
    · rintro ⟨i, hi, hg⟩
      exact ⟨i, List.mem_range.mpr hi, hg⟩
  · unfold none
    rw [decide_eq_true_eq, hc, List.countP_eq_zero]
    constructor
    · intro hall i hi
      have := hall i (List.mem_range.mpr hi)
      simpa using this
    · intro hall i hi
      rw [hall i (List.mem_range.mp hi)]
      exact Bool.false_ne_true

theorem C6_count_witness :
    Valid flipped10 ∧ count flipped10 = (List.range flipped10.N).countP (fun i => get flipped10 i) :=
  ⟨by decide, (C6_count flipped10 (by decide)).1⟩

/-- The behaviour of `set()` on every vector whose buffer has `ceil(N / 64)`
words, that is for every `N <= 2 ^ 64 - 64` (also `N = 0` and `N` a multiple of
64): every bit below `N` is set, `count()` is exactly `N`, and when `N` is not a
multiple of 64 every bit of the last word at a position `>= N % 64` is zero; for
`N = 130` the count is 130. -/
theorem set_all_of_valid (v : Bitset) (h : Valid v) :
    (∀ i, i < v.N → get (set v) i = true) ∧ count (set v) = v.N ∧
    (v.N % 64 ≠ 0 → ∀ p, v.N % 64 ≤ p →
      ((set v).bits.getD (v.capacity - 1) 0).testBit p = false) ∧
    count (set (ctor 130)) = 130 := by
  refine ⟨get_set v h, ?_, set_tailClean v h, by decide⟩
  rw [count_eq_countP _ (set_valid v h)]
  have hN : (set v).N = v.N := rfl
  rw [hN]
  have : List.countP (fun i => get (set v) i) (List.range v.N) = (List.range v.N).length := by
    rw [List.countP_eq_length]
    intro i hi
    exact get_set v h i (List.mem_range.mp hi)
  rw [this, List.length_range]

/-- C7, evaluated at the failing input `Bitset b(2 ^ 64 - 1); b.set();`: the
`size_t` sum `N + BASE - 1` of the constructor wraps, the object holds 0 words,
the loop of `set()` has no word to write, and `count()` is 0 and not `N`. -/
theorem C7_set_all_wraps :
    (ctor (2 ^ 64 - 1)).N = 2 ^ 64 - 1 ∧ (ctor (2 ^ 64 - 1)).capacity = 0 ∧
    (set (ctor (2 ^ 64 - 1))).N = 2 ^ 64 - 1 ∧ (set (ctor (2 ^ 64 - 1))).bits = [] ∧
    count (set (ctor (2 ^ 64 - 1))) = 0 ∧
    count (set (ctor (2 ^ 64 - 1))) ≠ (set (ctor (2 ^ 64 - 1))).N := by
  decide

/-- C8, evaluated at the failing input `Bitset b(10); b.flip();` (and
`~Bitset(10)`): the only word of the buffer is all ones, so bit 10 of the last
word, a position `>= N % 64`, is set; the tail is not clean. -/
theorem C8_flip_leaves_tail :
    (flip (ctor 10)).bits = [2 ^ 64 - 1] ∧ (not (ctor 10)).bits = [2 ^ 64 - 1] ∧
    (10 : Nat) % 64 ≠ 0 ∧ 10 % 64 ≤ 10 ∧
    ((flip (ctor 10)).bits.getD ((flip (ctor 10)).capacity - 1) 0).testBit 10 = true ∧
    ((not (ctor 10)).bits.getD ((not (ctor 10)).capacity - 1) 0).testBit 10 = true ∧
    ¬ TailClean (flip (ctor 10)) := by
  refine ⟨by decide, by decide, by decide, by decide, by decide, by decide, ?_⟩
  intro ht
  have := ht (by decide) 10 (by decide)
  revert this
  decide

/-- The behaviour of `flip()` on every vector `v` whose buffer has
`ceil(N / 64)` words, that is for every `N <= 2 ^ 64 - 64`: bit `i < N` is the
negation of what it was and `count()` is `N` minus what it was; `operator~`
flips a copy that holds the words of its operand (the operand itself is not
written) and its result has the same two properties. -/
theorem flip_all_of_valid (v : Bitset) (h : Valid v) :
    (∀ i, i < v.N → get (flip v) i = !get v i) ∧ count (flip v) = v.N - count v ∧
    not v = flip (copy v) ∧ copy v = v ∧
    (∀ i, i < v.N → get (not v) i = !get v i) ∧ count (not v) = v.N - count v := by
  have hcopy := copy_eq v h.2.2.1
  have hcount : count (flip v) = v.N - count v := by
    rw [count_eq_countP _ (flip_valid v h), count_eq_countP v h, flip_N]
    have hl := List.length_eq_countP_add_countP (fun i => get v i) (List.range v.N)
    rw [List.length_range] at hl
    have hc : List.countP (fun i => get (flip v) i) (List.range v.N) =
        List.countP (fun a => decide ¬ get v a = true) (List.range v.N) := by
      apply List.countP_congr
      intro i hi
      rw [get_flip v h i (List.mem_range.mp hi)]
      simp
    rw [hc]
    omega
  have hnot : not v = flip v := by
    unfold not
    rw [hcopy]
  refine ⟨get_flip v h, hcount, rfl, hcopy, ?_, ?_⟩
  · rw [hnot]; exact get_flip v h
  · rw [hnot]; exact hcount

/-- C9, evaluated at the failing input `Bitset b(2 ^ 64 - 1); b.flip();` (and
`~b`): the `size_t` sum `N + BASE - 1` of the constructor wraps, the object
holds 0 words, `count()` is 0 before and after `flip()`, and so it is not `N`
minus the count before. -/
theorem C9_flip_all_wraps :
    (ctor (2 ^ 64 - 1)).N = 2 ^ 64 - 1 ∧ (ctor (2 ^ 64 - 1)).capacity = 0 ∧
    count (ctor (2 ^ 64 - 1)) = 0 ∧ count (flip (ctor (2 ^ 64 - 1))) = 0 ∧
    count (not (ctor (2 ^ 64 - 1))) = 0 ∧
    count (flip (ctor (2 ^ 64 - 1))) ≠ (ctor (2 ^ 64 - 1)).N - count (ctor (2 ^ 64 - 1)) ∧
    count (not (ctor (2 ^ 64 - 1))) ≠ (ctor (2 ^ 64 - 1)).N - count (ctor (2 ^ 64 - 1)) := by
  decide

/-- C10, evaluated at the failing input `N = 2 ^ 37 + 64` (a buffer of
`2 ^ 31 + 1` words), only bit 0 set (the state after `b.set(0)` on a fresh
`Bitset b(N)`), `k = 0`: bit 0 of `v` is set and
`0 < N - k`, yet bit 0 of `(v << k) >> k` is clear, because the `int` loop
counter of `operator>>=` starts at `2 ^ 31` converted to `int`, a negative
value, and the loop body never runs. -/
theorem C10_round_trip_wide :
    set_at (ctor (2 ^ 37 + 64)) 0 = wide ∧ Valid wide ∧ wide.N = 2 ^ 37 + 64 ∧
    0 < wide.N - 0 ∧ get wide 0 = true ∧ get (shr (shl wide 0) 0) 0 = false := by
  have hv := wide_valid
  refine ⟨wide_reachable, hv, rfl, by decide, by decide, ?_⟩
  have hs := shlAssign_valid wide hv 0
  have hc : (shlAssign wide 0).capacity = 2 ^ 31 + 1 := by
    rw [shlAssign_capacity, ctor_capacity wide.N hv.1]
    decide
  rw [shl_eq wide hv, shr_eq _ hs, shrAssign_skipped _ 0 (by rw [hc]; decide), get_ctor]

end Bitset
namespace Bitset

/-- The set-algebra laws on all vectors `A`, `B` whose buffers have
`ceil(N / 64)` words, that is for every `N <= 2 ^ 64 - 64`, with equality read
as agreement of `operator[]` at every index below `N` and of `count()`:
`A & A == A`; `A | ~A` equals the vector that `set()` produces on `N` bits, with
`count()` equal to `N`; `A ^ A` equals the freshly constructed vector, with
`count()` equal to 0; and `(A & B) | (A & ~B) == A`. -/
theorem set_algebra_of_valid (A B : Bitset) (hA : Valid A) (hB : Valid B) (hN : A.N = B.N) :
    ((∀ i, i < A.N → get (and A A) i = get A i) ∧ count (and A A) = count A) ∧
    ((∀ i, i < A.N → get (or A (not A)) i = get (set (ctor A.N)) i) ∧
      count (or A (not A)) = count (set (ctor A.N)) ∧ count (or A (not A)) = A.N) ∧
    ((∀ i, i < A.N → get (xor A A) i = get (ctor A.N) i) ∧
      count (xor A A) = count (ctor A.N) ∧ count (xor A A) = 0) ∧
    ((∀ i, i < A.N → get (or (and A B) (and A (not B))) i = get A i) ∧
      count (or (and A B) (and A (not B))) = count A) := by
  have hc := ctor_valid A.N hA.1
  have hnA := flip_valid A hA
  have hnB := flip_valid B hB
  have hAB := andAssign_valid A B hA
  have hAnB := andAssign_valid A (flip B) hA
  rw [and_eq A A hA, or_eq A _ hA, not_eq A hA, xor_eq A A hA, and_eq A B hA, not_eq B hB,
    and_eq A _ hA, or_eq _ _ hAB]
  have g1 : ∀ i, i < A.N → get (andAssign A A) i = get A i := by
    intro i hi
    rw [get_andAssign A A hA i hi, Bool.and_self]
  have g2 : ∀ i, i < A.N → get (orAssign A (flip A)) i = get (set (ctor A.N)) i := by
    intro i hi
    rw [get_orAssign A _ hA i hi, get_flip A hA i hi, get_set (ctor A.N) hc i hi]
    cases get A i <;> rfl
  have g3 : ∀ i, i < A.N → get (xorAssign A A) i = get (ctor A.N) i := by
    intro i hi
    rw [get_xorAssign A A hA i hi, get_ctor]
    cases get A i <;> rfl
  have g4 : ∀ i, i < A.N →
      get (orAssign (andAssign A B) (andAssign A (flip B))) i = get A i := by
    intro i hi
    rw [get_orAssign _ _ hAB i hi, get_andAssign A B hA i hi, get_andAssign A _ hA i hi,
      get_flip B hB i (by rw [← hN]; exact hi)]
    cases get A i <;> cases get B i <;> rfl
  have c2 := count_congr _ _ (orAssign_valid A _ hA hnA) (set_valid _ hc) rfl g2
  have c3 := count_congr _ _ (xorAssign_valid A A hA hA) hc rfl g3
  refine ⟨⟨g1, count_congr _ _ (andAssign_valid A A hA) hA rfl g1⟩, ⟨g2, c2, ?_⟩,
    ⟨g3, c3, ?_⟩, ⟨g4, count_congr _ _ (orAssign_valid _ _ hAB hAnB) hA rfl g4⟩⟩
  · rw [c2, count_set _ hc]
    rfl
  · rw [c3]
    exact count_eq_zero_of_get _ hc (fun i _ => get_ctor A.N i)

/-- C11, evaluated at the failing input `A = Bitset(2 ^ 64 - 1)`: the `size_t`
sum `N + BASE - 1` of the constructor wraps, `A` holds 0 words, and `A | ~A`
has `count()` 0 and not `N`, so the law `A | ~A == all-ones(N)` with
`count() == N` fails. -/
theorem C11_set_algebra_wraps :
    (ctor (2 ^ 64 - 1)).N = 2 ^ 64 - 1 ∧ (ctor (2 ^ 64 - 1)).capacity = 0 ∧
    (or (ctor (2 ^ 64 - 1)) (not (ctor (2 ^ 64 - 1)))).N = 2 ^ 64 - 1 ∧
    count (or (ctor (2 ^ 64 - 1)) (not (ctor (2 ^ 64 - 1)))) = 0 ∧
    count (or (ctor (2 ^ 64 - 1)) (not (ctor (2 ^ 64 - 1)))) ≠ (ctor (2 ^ 64 - 1)).N := by
  decide

/-- C12: for all vectors `A`, `B` of `N` bits and every `i < N`, bit `i` of
`A & B`, `A | B`, `A ^ B` is the conjunction, disjunction, exclusive or of bit
`i` of `A` and of `B`; the in-place forms `&=`, `|=`, `^=` leave in the left
operand the vector the value forms return; and the result has `N` bits. -/
theorem C12_bitwise (A B : Bitset) (hA : Valid A) (hB : Valid B) (_hN : A.N = B.N) :
    (∀ i, i < A.N → get (and A B) i = (get A i && get B i)) ∧
    (∀ i, i < A.N → get (or A B) i = (get A i || get B i)) ∧
    (∀ i, i < A.N → get (xor A B) i = (get A i ^^ get B i)) ∧
    andAssign A B = and A B ∧ orAssign A B = or A B ∧ xorAssign A B = xor A B ∧
    (and A B).N = A.N ∧ (or A B).N = A.N ∧ (xor A B).N = A.N ∧
    Valid (and A B) ∧ Valid (or A B) ∧ Valid (xor A B) := by
  rw [and_eq A B hA, or_eq A B hA, xor_eq A B hA]
  exact ⟨get_andAssign A B hA, get_orAssign A B hA, get_xorAssign A B hA, rfl, rfl, rfl,
    rfl, rfl, rfl, andAssign_valid A B hA, orAssign_valid A B hA hB, xorAssign_valid A B hA hB⟩

theorem C12_bitwise_witness :
    Valid scenario10 ∧ Valid flipped10 ∧ scenario10.N = flipped10.N ∧
      ∀ i, i < scenario10.N →
        get (xor scenario10 flipped10) i = (get scenario10 i ^^ get flipped10 i) :=
  ⟨by decide, by decide, by decide,
    (C12_bitwise scenario10 flipped10 (by decide) (by decide) (by decide)).2.2.1⟩

/-- C13: for every vector `v` of `N` bits and every `i < N`, after `set(i)` bit
`i` is set, every other bit `j < N` is unchanged, and `count()` is the previous
count plus 1 when bit `i` was clear and the previous count when it was set. -/
theorem C13_set_bit (v : Bitset) (h : Valid v) (i : Nat) (hi : i < v.N) :
    get (set_at v i) i = true ∧
    (∀ j, j < v.N → j ≠ i → get (set_at v i) j = get v j) ∧
    (get v i = false → count (set_at v i) = count v + 1) ∧
    (get v i = true → count (set_at v i) = count v) := by
  have hg := get_set_at v h i hi
  have hcount : count (set_at v i) = count v + (if get v i = true then 0 else 1) := by
    rw [count_eq_countP _ (set_at_valid v h i), count_eq_countP v h]
    have hN : (set_at v i).N = v.N := rfl
    rw [hN, ← countP_set_point (fun j => get v j) v.N i hi]
    apply List.countP_congr
    intro j _
    rw [hg j]
  refine ⟨?_, ?_, ?_, ?_⟩
  · rw [hg i]; simp
  · intro j _ hji
    rw [hg j]; simp [hji]
  · intro hclear
    rw [hcount, hclear]
    rfl
  · intro hset
    rw [hcount, hset]
    rfl

theorem C13_set_bit_witness :
    Valid scenario10 ∧ 3 < scenario10.N ∧ get scenario10 3 = false ∧
      count (set_at scenario10 3) = count scenario10 + 1 :=
  ⟨by decide, by decide, by decide,
    (C13_set_bit scenario10 (by decide) 3 (by decide)).2.2.1 (by decide)⟩

/-- C14: for every vector of `N` bits and every `i < N`, after `reset(i)` bit
`i` is clear and after `flip(i)` bit `i` is the negation of what it was, and in
both cases every other stored bit is unchanged: every other logical bit
`j < N`, and every bit `p` of every word `j` other than position `i % 64` of
word `i / 64`. -/
theorem C14_reset_flip_bit (v : Bitset) (h : Valid v) (i : Nat) (hi : i < v.N) :
    get (reset_at v i) i = false ∧ get (flip_at v i) i = (!get v i) ∧
    (∀ j, j < v.N → j ≠ i → get (reset_at v i) j = get v j) ∧
    (∀ j, j < v.N → j ≠ i → get (flip_at v i) j = get v j) ∧
    (∀ j p, ¬ (j = i / 64 ∧ p = i % 64) →
      ((reset_at v i).bits.getD j 0).testBit p = (v.bits.getD j 0).testBit p) ∧
    (∀ j p, ¬ (j = i / 64 ∧ p = i % 64) →
      ((flip_at v i).bits.getD j 0).testBit p = (v.bits.getD j 0).testBit p) ∧
    (reset_at v i).bits.length = v.bits.length ∧ (flip_at v i).bits.length = v.bits.length := by
  refine ⟨?_, ?_, ?_, ?_, ?_, ?_, ?_, ?_⟩
  · rw [get_reset_at v h i hi]; simp
  · rw [get_flip_at v h i hi]; simp
  · intro j _ hji
    rw [get_reset_at v h i hi]; simp [hji]
  · intro j _ hji
    rw [get_flip_at v h i hi]; simp [hji]
  · intro j p hne
    rw [testBit_reset_at v h i hi]; simp [hne]
  · intro j p hne
    rw [testBit_flip_at v h i hi]; simp [hne]
  · exact (reset_at_valid v h i).2.2.1.trans h.2.2.1.symm
  · exact (flip_at_valid v h i).2.2.1.trans h.2.2.1.symm

theorem C14_reset_flip_bit_witness :
    Valid scenario10 ∧ 5 < scenario10.N ∧ get (reset_at scenario10 5) 5 = false ∧
      get (flip_at scenario10 5) 5 = (!get scenario10 5) :=
  ⟨by decide, by decide, (C14_reset_flip_bit scenario10 (by decide) 5 (by decide)).1,
    (C14_reset_flip_bit scenario10 (by decide) 5 (by decide)).2.1⟩

/-- C15: for every vector state of `N` bits (the tail of its last word
arbitrary), `flip()` applied twice gives back the same object: every stored
word, hence every logical bit and `count()`, is as in the original. -/
theorem C15_flip_involution (v : Bitset) (h : Valid v) :
    flip (flip v) = v ∧ (∀ j, (flip (flip v)).bits.getD j 0 = v.bits.getD j 0) ∧
    (∀ i, get (flip (flip v)) i = get v i) ∧ count (flip (flip v)) = count v := by
  have hff := flip_flip v (by rw [h.2.2.1])
  rw [hff]
  exact ⟨rfl, fun _ => rfl, fun _ => rfl, rfl⟩

theorem C15_flip_involution_witness :
    Valid tail63 ∧ flip (flip tail63) = tail63 :=
  ⟨by decide, (C15_flip_involution tail63 (by decide)).1⟩

/-- C16, evaluated at the failing input `N = 2 ^ 64 - 1`: the `size_t` sum
`N + BASE - 1` of the constructor wraps to 62, so the fresh `Bitset(N)` holds 0
words, whereas `ceil(N / 64)` is `2 ^ 58`. -/
theorem C16_ctor_wraps :
    (ctor (2 ^ 64 - 1)).N = 2 ^ 64 - 1 ∧ wrap64 (2 ^ 64 - 1 + BASE - 1) = 62 ∧
    (ctor (2 ^ 64 - 1)).capacity = 0 ∧ (ctor (2 ^ 64 - 1)).bits = [] ∧
    (2 ^ 64 - 1 + 63) / 64 = 2 ^ 58 ∧ ¬ Valid (ctor (2 ^ 64 - 1)) := by
  decide

/-- C17: the scenario `N = 130`: after `set()` `count()` is 130, after a
following `flip()` it is 0, and after a following `set(129)` `_Find_first()`
returns 129. -/
theorem C17_scenario_130 :
    count (set (ctor 130)) = 130 ∧ count (flip (set (ctor 130))) = 0 ∧
    Find_first (set_at (flip (set (ctor 130))) 129) = 129 := by
  decide

/-- C18, evaluated at the failing input `N = 2 ^ 37 + 64` (a buffer of
`2 ^ 31 + 1` words, clean tail), only bit 0 set, `k = 0`: bit `0 + k` of `v` is
set and `0 + k < N`, yet bit 0 of the result of `v >>= k` is clear, because the
`int` loop counter starts at `2 ^ 31` converted to `int`, a negative value. -/
theorem C18_shift_right_wide :
    Valid wide ∧ TailClean wide ∧ 0 + 0 < wide.N ∧ get wide (0 + 0) = true ∧
    get (shrAssign wide 0) 0 = false := by
  refine ⟨wide_valid, wide_tailClean, by decide, by decide, ?_⟩
  rw [shrAssign_skipped wide 0 (by decide), get_ctor]

/-- C19: the clean-tail predicate holds after construction; it is preserved by
`set()`, `reset()`, by `set(i)`, `reset(i)`, `flip(i)` with `i < N`, by `<<=`
and `>>=` for every shift amount, and by `&=`, `|=`, `^=` when both operands
have a clean tail; and `<<=` gives a clean tail from any input state. -/
theorem C19_tail_clean (v w : Bitset) (hv : Valid v) (hw : Valid w) (hN : v.N = w.N)
    (i k : Nat) (hi : i < v.N) :
    (∀ n, TailClean (ctor n)) ∧ TailClean (shlAssign v k) ∧
    (TailClean v →
      TailClean (set v) ∧ TailClean (reset v) ∧ TailClean (set_at v i) ∧
      TailClean (reset_at v i) ∧ TailClean (flip_at v i) ∧ TailClean (shlAssign v k) ∧
      TailClean (shrAssign v k)) ∧
    (TailClean v → TailClean w →
      TailClean (andAssign v w) ∧ TailClean (orAssign v w) ∧ TailClean (xorAssign v w)) := by
  refine ⟨ctor_tailClean, shlAssign_tailClean v hv k, fun ht => ?_, fun ht htw => ?_⟩
  · exact ⟨set_tailClean v hv, reset_tailClean v hv, set_at_tailClean v hv ht i hi,
      reset_at_tailClean v hv ht i hi, flip_at_tailClean v hv ht i hi,
      shlAssign_tailClean v hv k, shrAssign_tailClean v hv ht k⟩
  · exact ⟨andAssign_tailClean v w hv ht, orAssign_tailClean v w hv hw hN ht htw,
      xorAssign_tailClean v w hv hw hN ht htw⟩

theorem C19_tail_clean_witness :
    Valid scenario10 ∧ scenario10.N = scenario10.N ∧ 3 < scenario10.N ∧
      TailClean scenario10 ∧ TailClean (flip_at scenario10 3) ∧
      TailClean (shrAssign scenario10 2) ∧ TailClean (xorAssign scenario10 scenario10) :=
  ⟨by decide, rfl, by decide, scenario10_tailClean,
    ((C19_tail_clean scenario10 scenario10 (by decide) (by decide) rfl 3 2
      (by decide)).2.2.1 scenario10_tailClean).2.2.2.2.1,
    ((C19_tail_clean scenario10 scenario10 (by decide) (by decide) rfl 3 2
      (by decide)).2.2.1 scenario10_tailClean).2.2.2.2.2.2,
    ((C19_tail_clean scenario10 scenario10 (by decide) (by decide) rfl 3 2
      (by decide)).2.2.2 scenario10_tailClean scenario10_tailClean).2.2⟩

/-- C20: for every vector of `N` bits whose buffer has fewer than `2 ^ 31`
words, every shift amount `k` and every `index < N`, the runs of `<<=`, `>>=`
and `_Find_next(index)` in which each buffer read and write must be below the
word count, each 64-bit shift must have an amount in `[0, 63]` and the loop
counter of `>>=` must be representable as an `int` never fail, and give the
results of the methods. -/
theorem C20_no_out_of_range (v : Bitset) (h : Valid v) (h31 : v.capacity < 2 ^ 31)
    (k index : Nat) (hi : index < v.N) :
    shlAssignChecked v k = some (shlAssign v k) ∧
    shrAssignChecked v k = some (shrAssign v k) ∧
    Find_nextChecked v index = some (Find_next v index) :=
  ⟨shlAssignChecked_eq v h k, shrAssignChecked_eq v h h31 k, Find_nextChecked_eq v h index hi⟩

theorem C20_no_out_of_range_witness :
    Valid scenario10 ∧ scenario10.capacity < 2 ^ 31 ∧ 2 < scenario10.N ∧
      shlAssignChecked scenario10 3 = some (shlAssign scenario10 3) ∧
      shrAssignChecked scenario10 3 = some (shrAssign scenario10 3) ∧
      Find_nextChecked scenario10 2 = some (Find_next scenario10 2) :=
  ⟨by decide, by decide, by decide,
    C20_no_out_of_range scenario10 (by decide) (by decide) 3 2 (by decide)⟩

end Bitset
end CPT
